import Mathlib

/-!
Verification development for the grub_md HTML-to-Markdown pipeline
(src/grub_md/src/lib.rs).  The Rust source is shallowly embedded: the DOM is a
rose tree (the lenient HTML parser itself is an external black box, so a parsed
document is taken as input), strings are Lean `String`s manipulated as
`List Char`, and the `url` crate's join operation is an abstract parameter.
-/

set_option maxHeartbeats 1000000

-- ===========================================================================
-- Character / string helpers modelling Rust std behaviour
-- ===========================================================================

/-- Rust `char::is_whitespace` (and the default Unicode `\s` of the regex
crate): the Unicode White_Space property. -/
def is_rust_whitespace (c : Char) : Bool :=
  let n := c.toNat
  decide ((0x9 ≤ n ∧ n ≤ 0xD) ∨ n = 0x20 ∨ n = 0x85 ∨ n = 0xA0 ∨ n = 0x1680 ∨
    (0x2000 ≤ n ∧ n ≤ 0x200A) ∨ n = 0x2028 ∨ n = 0x2029 ∨ n = 0x202F ∨
    n = 0x205F ∨ n = 0x3000)

/-- The code-point ranges of the Unicode general category `Nd` (decimal
number, Unicode 15.1): the character class of the regex crate's
default-Unicode `\d` (`\p{Nd}`). -/
def ND_RANGES : List (Nat × Nat) :=
  [(0x0030, 0x0039), (0x0660, 0x0669), (0x06F0, 0x06F9), (0x07C0, 0x07C9),
   (0x0966, 0x096F), (0x09E6, 0x09EF), (0x0A66, 0x0A6F), (0x0AE6, 0x0AEF),
   (0x0B66, 0x0B6F), (0x0BE6, 0x0BEF), (0x0C66, 0x0C6F), (0x0CE6, 0x0CEF),
   (0x0D66, 0x0D6F), (0x0DE6, 0x0DEF), (0x0E50, 0x0E59), (0x0ED0, 0x0ED9),
   (0x0F20, 0x0F29), (0x1040, 0x1049), (0x1090, 0x1099), (0x17E0, 0x17E9),
   (0x1810, 0x1819), (0x1946, 0x194F), (0x19D0, 0x19D9), (0x1A80, 0x1A89),
   (0x1A90, 0x1A99), (0x1B50, 0x1B59), (0x1BB0, 0x1BB9), (0x1C40, 0x1C49),
   (0x1C50, 0x1C59), (0xA620, 0xA629), (0xA8D0, 0xA8D9), (0xA900, 0xA909),
   (0xA9D0, 0xA9D9), (0xA9F0, 0xA9F9), (0xAA50, 0xAA59), (0xABF0, 0xABF9),
   (0xFF10, 0xFF19), (0x104A0, 0x104A9), (0x10D30, 0x10D39),
   (0x11066, 0x1106F), (0x110F0, 0x110F9), (0x11136, 0x1113F),
   (0x111D0, 0x111D9), (0x112F0, 0x112F9), (0x11450, 0x11459),
   (0x114D0, 0x114D9), (0x11650, 0x11659), (0x116C0, 0x116C9),
   (0x11730, 0x11739), (0x118E0, 0x118E9), (0x11950, 0x11959),
   (0x11C50, 0x11C59), (0x11D50, 0x11D59), (0x11DA0, 0x11DA9),
   (0x11F50, 0x11F59), (0x16A60, 0x16A69), (0x16AC0, 0x16AC9),
   (0x16B50, 0x16B59), (0x1D7CE, 0x1D7FF), (0x1E140, 0x1E149),
   (0x1E2F0, 0x1E2F9), (0x1E4F0, 0x1E4F9), (0x1E950, 0x1E959),
   (0x1FBF0, 0x1FBF9)]

/-- The regex crate's default-Unicode `\d`: membership in `\p{Nd}`. -/
def is_nd (c : Char) : Bool :=
  ND_RANGES.any fun p => decide (p.1 ≤ c.toNat) && decide (c.toNat ≤ p.2)

/-- Number of UTF-8 bytes of one scalar value (Rust `char::len_utf8`). -/
def char_utf8_bytes (c : Char) : Nat :=
  if c.toNat < 0x80 then 1
  else if c.toNat < 0x800 then 2
  else if c.toNat < 0x10000 then 3
  else 4

/-- Rust `str::len`: the UTF-8 byte length of a string. -/
def utf8_len (s : String) : Nat :=
  (s.data.map char_utf8_bytes).sum

/-- Drop trailing characters satisfying `is_rust_whitespace`. -/
def rtrim_l : List Char → List Char
  | [] => []
  | c :: r =>
    let t := rtrim_l r
    if t = [] && is_rust_whitespace c then [] else c :: t

/-- Rust `str::trim`: drop leading and trailing Unicode whitespace. -/
def trim_l (l : List Char) : List Char :=
  rtrim_l (l.dropWhile is_rust_whitespace)

/-- Rust `str::trim` on `String`. -/
def rust_trim (s : String) : String := ⟨trim_l s.data⟩

/-- Whitespace squashing: having already dropped leading whitespace, collapse
every interior whitespace run to a single space and drop a trailing run. -/
def squash_ws (pending : Bool) : List Char → List Char
  | [] => []
  | c :: r =>
    if is_rust_whitespace c then squash_ws true r
    else (if pending then [' '] else []) ++ c :: squash_ws false r

/-- Rust `s.split_whitespace().collect::<Vec<_>>().join(" ")`: collapse all
whitespace runs (including newlines) to single spaces and trim both ends. -/
def normalize_ws_l (l : List Char) : List Char :=
  squash_ws false (l.dropWhile is_rust_whitespace)

/-- `normalize_ws_l` on `String`; this is also the behaviour the spec claims
for every text node encountered by the walker. -/
def normalize_ws (s : String) : String := ⟨normalize_ws_l s.data⟩

/-- Split a character list into whitespace-separated words
(Rust `str::split_whitespace`). -/
def words_go (cur : List Char) : List Char → List (List Char)
  | [] => if cur = [] then [] else [cur.reverse]
  | c :: r =>
    if is_rust_whitespace c then
      (if cur = [] then words_go [] r else cur.reverse :: words_go [] r)
    else words_go (c :: cur) r

/-- Rust `str::split_whitespace` returning `String` words. -/
def ws_words (s : String) : List String :=
  (words_go [] s.data).map (fun l => ⟨l⟩)

/-- Concatenate a list of strings (Rust `String` pushes in a loop). -/
def str_concat : List String → String
  | [] => ""
  | s :: r => s ++ str_concat r

/-- Split into lines at `'\n'` like Rust `str::lines` (no trailing empty
line when the text ends with a newline). -/
def lines_go (cur : List Char) : List Char → List (List Char)
  | [] => if cur = [] then [] else [cur.reverse]
  | c :: r => if c = '\n' then cur.reverse :: lines_go [] r else lines_go (c :: cur) r

/-- Strip one trailing `'\r'` from a line (Rust `str::lines` CRLF handling). -/
def strip_cr (l : List Char) : List Char :=
  if l.getLast? = some '\r' then l.dropLast else l

/-- Rust `str::lines` on a string, as character lists. -/
def lines_of (s : String) : List (List Char) :=
  (lines_go [] s.data).map strip_cr

/-- Is `pat` a substring of `l` (Rust `str::contains` with a literal)? -/
def list_contains_sub (pat : List Char) : List Char → Bool
  | [] => pat.isPrefixOf []
  | c :: r => pat.isPrefixOf (c :: r) || list_contains_sub pat r

/-- Rust `str::contains` with a literal pattern. -/
def contains_sub (s pat : String) : Bool := list_contains_sub pat.data s.data

/-- Replace the first occurrence of `pat` in `s` by `rep`
(Rust `str::replacen(pat, rep, 1)`). -/
def replace_first (pat rep : List Char) : List Char → List Char
  | [] => if pat.isPrefixOf [] then rep else []
  | c :: r =>
    if pat.isPrefixOf (c :: r) then rep ++ (c :: r).drop pat.length
    else c :: replace_first pat rep r

-- ===========================================================================
-- Markdown cleaners (clean_markdown / clean_markdown_readable)
-- ===========================================================================

/-- Cap every run of the character `c` at `cap` copies; `cnt` counts the
copies of `c` already emitted in the current run.  With `c := '\n'`, `cap := 2`
this is the regex rewrite `\n{3,}` → `"\n\n"`; with `c := ' '`, `cap := 1` it
is `" {2,}"` → `" "`. -/
def cap_runs_go (c : Char) (cap : Nat) (cnt : Nat) : List Char → List Char
  | [] => []
  | x :: xs =>
    if x = c then (if cnt < cap then [c] else []) ++ cap_runs_go c cap (cnt + 1) xs
    else x :: cap_runs_go c cap 0 xs

/-- Cap runs of `c` at `cap` copies (see `cap_runs_go`). -/
def cap_runs (c : Char) (cap : Nat) (l : List Char) : List Char :=
  cap_runs_go c cap 0 l

/-- The regex rewrite `"\n- \n"` → `"\n"` (RE_EMPTY_LI), with `replace_all`
semantics: non-overlapping, left to right, continuing after each match.
Fuel-indexed, one unit of fuel per scanning step. -/
def repl_hyphen_f : Nat → List Char → List Char
  | 0, l => l
  | _ + 1, [] => []
  | f + 1, c :: r =>
    if c = '\n' && r.take 3 = ['-', ' ', '\n'] then '\n' :: repl_hyphen_f f (r.drop 3)
    else c :: repl_hyphen_f f r

/-- `repl_hyphen_f` with sufficient fuel. -/
def repl_hyphen (l : List Char) : List Char := repl_hyphen_f l.length l

/-- Does `r` begin with `\d+\. \n` (the tail of an RE_EMPTY_OL match)?  `\d`
is the regex crate's default-Unicode `\p{Nd}`, modelled by `is_nd`. -/
def ol_here (r : List Char) : Bool :=
  !(r.takeWhile is_nd).isEmpty &&
    (r.dropWhile is_nd).take 3 = ['.', ' ', '\n']

/-- The regex rewrite `"\n\d+\. \n"` → `"\n"` (RE_EMPTY_OL) with `replace_all`
semantics; fuel-indexed, one unit of fuel per scanning step. -/
def repl_ol_f : Nat → List Char → List Char
  | 0, l => l
  | _ + 1, [] => []
  | f + 1, c :: r =>
    if c = '\n' && ol_here r then '\n' :: repl_ol_f f ((r.dropWhile is_nd).drop 3)
    else c :: repl_ol_f f r

/-- `repl_ol_f` with sufficient fuel. -/
def repl_ol (l : List Char) : List Char := repl_ol_f l.length l

/-- Rust `clean_markdown`: collapse 3+ newlines to two, 2+ spaces to one,
delete empty `- ` and `N. ` bullet lines, trim the whole text. -/
def clean_markdown_l (l : List Char) : List Char :=
  trim_l (repl_ol (repl_hyphen (cap_runs ' ' 1 (cap_runs '\n' 2 l))))

/-- Rust `clean_markdown` on `String`. -/
def clean_markdown (md : String) : String := ⟨clean_markdown_l md.data⟩

/-- The regex rewrite `\n+(#{1,6})` → `"\n\n$1"` (RE_HEADER_BEFORE),
fuel-indexed. -/
def hdr_before_f : Nat → List Char → List Char
  | 0, l => l
  | _ + 1, [] => []
  | f + 1, '\n' :: r =>
    let r1 := r.dropWhile (· = '\n')
    if r1.head? = some '#' then
      let hs := (r1.takeWhile (· = '#')).take 6
      '\n' :: '\n' :: (hs ++ hdr_before_f f (r1.drop hs.length))
    else '\n' :: (r.takeWhile (· = '\n') ++ hdr_before_f f r1)
  | f + 1, c :: r => c :: hdr_before_f f r

/-- The regex rewrite `(#{1,6}.*)\n+` → `"$1\n\n"` (RE_HEADER_AFTER),
fuel-indexed. -/
def hdr_after_f : Nat → List Char → List Char
  | 0, l => l
  | _ + 1, [] => []
  | f + 1, '#' :: r =>
    let lineRest := r.takeWhile (· ≠ '\n')
    let rest := r.dropWhile (· ≠ '\n')
    if rest.head? = some '\n' then
      '#' :: lineRest ++ '\n' :: '\n' :: hdr_after_f f (rest.dropWhile (· = '\n'))
    else '#' :: hdr_after_f f r
  | f + 1, c :: r => c :: hdr_after_f f r

/-- Rust `clean_markdown_readable`: collapse 3+ newlines, delete empty `- `
bullet lines, force headings onto their own paragraphs, trim.  (No multi-space
collapse — a deliberate asymmetry with `clean_markdown`.) -/
def clean_markdown_readable (md : String) : String :=
  let s1 := cap_runs '\n' 2 md.data
  let s2 := repl_hyphen s1
  let s3 := hdr_before_f s2.length s2
  let s4 := hdr_after_f s3.length s3
  ⟨trim_l s4⟩

-- Scanning predicates used to state cleaner properties ----------------------

/-- Does `l` contain an RE_EMPTY_LI match `"\n- \n"`? -/
def has_li : List Char → Bool
  | [] => false
  | c :: r => (c = '\n' && r.take 3 = ['-', ' ', '\n']) || has_li r

/-- Does `l` contain an RE_EMPTY_OL match `"\n\d+\. \n"`? -/
def has_ol : List Char → Bool
  | [] => false
  | c :: r => (c = '\n' && ol_here r) || has_ol r

/-- Does `l` contain three consecutive copies of `c`? -/
def has_triple (c : Char) : List Char → Bool
  | a :: b :: d :: r => (a = c && b = c && d = c) || has_triple c (b :: d :: r)
  | _ => false

/-- An RE_EMPTY_OL match as a substring witness: some non-empty digit run
`ds` with `"\n" ++ ds ++ ". \n"` occurring inside `l`. -/
def HasOlPat (l : List Char) : Prop :=
  ∃ ds : List Char, ds ≠ [] ∧ ds.all is_nd = true ∧
    ('\n' :: (ds ++ ['.', ' ', '\n'])) <:+: l

-- ===========================================================================
-- DOM model
-- ===========================================================================

/-- A parsed DOM node.  The lenient HTML parser is an external black box; a
pipeline invocation receives the already-parsed document root (normally the
`html` element).  `id` models the `ego_tree::NodeId` node identity (unique
within one document). -/
inductive HNode where
  | text (s : String)
  | elem (id : Nat) (tag : String) (attrs : List (String × String)) (children : List HNode)

/-- Tag of an element node (`""` for text nodes, which carry no tag). -/
def tag_of : HNode → String
  | .text _ => ""
  | .elem _ t _ _ => t

/-- Node identity of an element (text nodes are never identity-keyed). -/
def id_of : HNode → Nat
  | .text _ => 0
  | .elem i _ _ _ => i

/-- Children of a node. -/
def children_of : HNode → List HNode
  | .text _ => []
  | .elem _ _ _ cs => cs

/-- Attribute lookup (scraper's `Element::attr`; the parser keeps the first
occurrence of a duplicated attribute). -/
def attr_of (attrs : List (String × String)) (name : String) : Option String :=
  attrs.lookup name

/-- The whitespace-separated entries of the `class` attribute. -/
def class_words (attrs : List (String × String)) : List String :=
  ws_words ((attr_of attrs "class").getD "")

/-- Tags whose entire subtree the walker skips (SKIP_TAGS). -/
def SKIP_TAGS : List String :=
  ["script", "style", "noscript", "iframe", "object", "embed", "form", "input",
   "button", "select", "textarea"]

/-- Nav / clutter tags removed during content filtering (NAV_TAGS). -/
def NAV_TAGS : List String := ["nav", "header", "footer", "aside"]

/-- Nav / clutter CSS classes removed during content filtering (NAV_CLASSES). -/
def NAV_CLASSES : List String :=
  ["nav", "navigation", "sidebar", "menu", "ads", "advertisement", "social",
   "share", "comments", "related", "popup", "modal"]

/-- Hidden / a11y-only CSS classes (HIDDEN_CLASSES). -/
def HIDDEN_CLASSES : List String :=
  ["sr-only", "sr_only", "srOnly", "visually-hidden", "visually_hidden",
   "screen-reader-only", "screen_reader_only", "a11y-only", "a11y_only"]

/-- Block-level tags that signal a table cell is used for layout
(BLOCK_LIKE_TAGS). -/
def BLOCK_LIKE_TAGS : List String :=
  ["div", "p", "ul", "ol", "table", "article", "section", "header", "footer",
   "nav", "aside"]

/-- Rust `should_skip`: skip-tag, `hidden` attribute, or a hidden/a11y class. -/
def should_skip (tag : String) (attrs : List (String × String)) : Bool :=
  SKIP_TAGS.contains tag || (attr_of attrs "hidden").isSome ||
    (class_words attrs).any (fun c => HIDDEN_CLASSES.contains c)

/-- Rust `is_nav_clutter`: nav/clutter tag or nav/clutter class. -/
def is_nav_clutter (tag : String) (attrs : List (String × String)) : Bool :=
  NAV_TAGS.contains tag || (class_words attrs).any (fun c => NAV_CLASSES.contains c)

mutual
/-- All identities in a subtree, the node itself first (Rust `add_subtree`:
the element's id plus every descendant element's id). -/
def subtree_ids : HNode → List Nat
  | .text _ => []
  | .elem i _ _ cs => i :: subtree_ids_l cs
/-- `subtree_ids` over a child list. -/
def subtree_ids_l : List HNode → List Nat
  | [] => []
  | c :: cs => subtree_ids c ++ subtree_ids_l cs
end

mutual
/-- Rust `collect_nav_ids`: if the element is hard-skipped or nav clutter,
insert its whole subtree into the skip set and stop; otherwise recurse. -/
def collect_nav_ids : HNode → List Nat
  | .text _ => []
  | .elem i tag attrs cs =>
    if should_skip tag attrs || is_nav_clutter tag attrs then i :: subtree_ids_l cs
    else collect_nav_ids_l cs
/-- `collect_nav_ids` over a child list. -/
def collect_nav_ids_l : List HNode → List Nat
  | [] => []
  | c :: cs => collect_nav_ids c ++ collect_nav_ids_l cs
end

/-- Rust `build_skip_set`: run `collect_nav_ids` on each child of the document
root. -/
def build_skip_set (doc : HNode) : List Nat :=
  collect_nav_ids_l (children_of doc)

mutual
/-- All element nodes of a subtree in document (pre-)order, self included. -/
def elems : HNode → List HNode
  | .text _ => []
  | .elem i tag attrs cs => .elem i tag attrs cs :: elems_l cs
/-- `elems` over a child list. -/
def elems_l : List HNode → List HNode
  | [] => []
  | c :: cs => elems c ++ elems_l cs
end

/-- A simple CSS selector: by tag, by class, or by id (the only selector
shapes used by SEL_MAIN). -/
inductive SelKind where
  | tagSel (t : String)
  | classSel (c : String)
  | idSel (i : String)

/-- Does an element node match a simple selector? -/
def sel_matches : SelKind → HNode → Bool
  | .tagSel t, n => tag_of n = t
  | .classSel c, .elem _ _ attrs _ => (class_words attrs).contains c
  | .idSel i, .elem _ _ attrs _ => attr_of attrs "id" = some i
  | _, .text _ => false

/-- The ordered main-content selector list (SEL_MAIN). -/
def SEL_MAIN : List SelKind :=
  [.tagSel "main", .tagSel "article", .classSel "content",
   .classSel "main-content", .classSel "post-content", .classSel "entry-content",
   .idSel "content", .idSel "main", .tagSel "body"]

/-- Rust `find_main_content`: for each selector in priority order, the first
document-order match whose identity is not in the skip set. -/
def find_main_content (doc : HNode) (skips : List Nat) : Option HNode :=
  SEL_MAIN.findSome? fun s =>
    (elems doc).find? fun e => sel_matches s e && !skips.contains (id_of e)

/-- Rust `direct_children_by_sel` with a tag-list selector (`tr`, `td, th`,
`thead, tbody, tfoot`, `li`): direct element children with a matching tag. -/
def direct_children_by_tags (tags : List String) (cs : List HNode) : List HNode :=
  cs.filter fun c =>
    match c with
    | .elem _ t _ _ => tags.contains t
    | .text _ => false

mutual
/-- Text collection (Rust `collect_text`): every text node of the subtree,
in document order, concatenated. -/
def collect_text : HNode → List Char
  | .text s => s.data
  | .elem _ _ _ cs => collect_text_l cs
/-- `collect_text` over a child list. -/
def collect_text_l : List HNode → List Char
  | [] => []
  | c :: cs => collect_text c ++ collect_text_l cs
end

/-- Rust `get_text_content`: concatenated subtree text with whitespace
normalised (`split_whitespace` + join with single spaces). -/
def get_text_content (n : HNode) : String := ⟨normalize_ws_l (collect_text n)⟩

/-- Rust `get_raw_text`: concatenated subtree text, whitespace preserved. -/
def get_raw_text (n : HNode) : String := ⟨collect_text n⟩

/-- All element descendants of the children of a node (scraper's
`ElementRef::select`, which excludes the element itself): `elems_l` applied
to the child list. -/
def desc_elems (n : HNode) : List HNode := elems_l (children_of n)

-- ===========================================================================
-- URL resolution (the url crate is external; its join is a parameter)
-- ===========================================================================

/-- Rust `resolve_url`: empty href yields empty; with a base, a successful
join wins, a failed join falls back to the raw href; without a base the raw
href is returned verbatim. -/
def resolve_url {U : Type} (join : U → String → Option String) (href : String)
    (base : Option U) : String :=
  if href = "" then ""
  else
    match base with
    | some b =>
      match join b href with
      | some u => u
      | none => href
    | none => href

/-- Modelled from the spec: the external WHATWG-URL library used by the code
(`Url::parse` / `Url::join`), absent from src/.  `parse` turns an absolute
base-URL string into a base, `join` resolves a reference against a base; both
signal failure with `none`. -/
structure UrlModel (U : Type) where
  parse : String → Option U
  join : U → String → Option String

/-- Rust `run_pipeline` base parsing: an empty base string is no base,
otherwise `Url::parse(base_url).ok()`. -/
def parse_base {U : Type} (parse : String → Option U) (base_url : String) : Option U :=
  if base_url = "" then none else parse base_url

-- ===========================================================================
-- The tree walker
-- ===========================================================================

/-- Walker state (Rust `Walker`): base URL (with the abstract join), the
dedupe-tables flag and the active skip set.  The layout-table depth counter is
passed as an explicit argument of `walk`. -/
structure WalkCtx (U : Type) where
  join : U → String → Option String
  base_url : Option U
  dedupe_tables : Bool
  skip_ids : List Nat

/-- Rust `Walker::handle_image`: nothing for an empty `src`; `alt` defaults to
"Image" only when the attribute is absent; the optional title is appended in
quotes. -/
def handle_image {U : Type} (join : U → String → Option String) (base : Option U)
    (attrs : List (String × String)) : String :=
  let src := (attr_of attrs "src").getD ""
  if src = "" then ""
  else
    let alt := (attr_of attrs "alt").getD "Image"
    let title := (attr_of attrs "title").getD ""
    let resolved := resolve_url join src base
    "![" ++ alt ++ "](" ++ resolved ++
      (if title = "" then "" else " \"" ++ title ++ "\"") ++ ")"

/-- Rust heading emission: blank line, `#` × level, space, text, blank line —
only for non-empty text. -/
def header_md (level : Nat) (text : String) : String :=
  if text = "" then ""
  else "\n" ++ String.mk (List.replicate level '#') ++ " " ++ text ++ "\n\n"

/-- One rendered table row `| a | b | ... |` (without trailing newline). -/
def table_row_md (cells : List HNode) : String :=
  "| " ++ String.intercalate " | " (cells.map get_text_content) ++ " |"

/-- The header separator row with `n` `---` cells. -/
def sep_row_md (n : Nat) : String :=
  "| " ++ String.intercalate " | " (List.replicate n "---") ++ " |"

/-- The markdown line of one collected row: `none` when the row has no direct
`td`/`th` cells (such rows are skipped). -/
def row_md_of (r : HNode) : Option String :=
  let cl := direct_children_by_tags ["td", "th"] (children_of r)
  if cl.isEmpty then none else some (table_row_md cl)

/-- The data-table branch of Rust `Walker::handle_table`: render every row
with cells; if the first collected row had at least one `th` cell, insert the
separator row at position 1. -/
def data_table_md (rows : List HNode) : String :=
  let first_cells :=
    match rows with
    | [] => []
    | r :: _ => direct_children_by_tags ["td", "th"] (children_of r)
  let first_has_th := first_cells.any fun c => tag_of c = "th"
  let first_cell_count := first_cells.length
  let md_rows := rows.filterMap row_md_of
  if md_rows.isEmpty then ""
  else
    let md_rows2 :=
      if first_has_th && decide (0 < first_cell_count) then
        md_rows.insertIdx 1 (sep_row_md first_cell_count)
      else md_rows
    str_concat (md_rows2.map (fun r => r ++ "\n")) ++ "\n"

/-- Ordered/unordered list rendering: emit only non-empty items, the ordered
counter advancing only on emitted items. -/
def render_list_go (ordered : Bool) (counter : Nat) : List String → String
  | [] => ""
  | s :: rest =>
    if s = "" then render_list_go ordered counter rest
    else
      (if ordered then Nat.repr counter ++ ". " else "- ") ++ s ++ "\n" ++
        render_list_go ordered (counter + 1) rest

/-- Rust `Walker::handle_list` tail: render the item strings and append the
unconditional trailing newline. -/
def render_list (ordered : Bool) (items : List String) : String :=
  render_list_go ordered 1 items ++ "\n"

/-- Rust blockquote rendering: split the inline content into lines, prefix
each non-blank trimmed line with `"> "`, then a trailing newline. -/
def bq_render (content : String) : String :=
  str_concat ((lines_of content).map fun ln =>
    let t : String := ⟨trim_l ln⟩
    if t = "" then "" else "> " ++ t ++ "\n") ++ "\n"

mutual
/-- Rust `Walker::walk`: skip checks, then tag dispatch.  `depth` is the
layout-table depth counter, `pt` the tag of the DOM parent (used by the
`code`/`tt` cases; `none` at the walk root). -/
def walk {U : Type} (ctx : WalkCtx U) (depth : Nat) (pt : Option String) :
    HNode → String
  | .text _ => ""
  | .elem i tag attrs cs =>
    if should_skip tag attrs then ""
    else if ctx.skip_ids.contains i then ""
    else
      match tag with
      | "h1" => header_md 1 (get_text_content (.elem i tag attrs cs))
      | "h2" => header_md 2 (get_text_content (.elem i tag attrs cs))
      | "h3" => header_md 3 (get_text_content (.elem i tag attrs cs))
      | "h4" => header_md 4 (get_text_content (.elem i tag attrs cs))
      | "h5" => header_md 5 (get_text_content (.elem i tag attrs cs))
      | "h6" => header_md 6 (get_text_content (.elem i tag attrs cs))
      | "p" =>
        let s := walk_children ctx depth tag cs
        if s = "" then "" else s ++ "\n\n"
      | "br" => "\n"
      | "strong" =>
        let s := walk_children ctx depth tag cs
        if s = "" then "" else "**" ++ s ++ "**"
      | "b" =>
        let s := walk_children ctx depth tag cs
        if s = "" then "" else "**" ++ s ++ "**"
      | "em" =>
        let s := walk_children ctx depth tag cs
        if s = "" then "" else "*" ++ s ++ "*"
      | "i" =>
        let s := walk_children ctx depth tag cs
        if s = "" then "" else "*" ++ s ++ "*"
      | "a" =>
        let text := get_text_content (.elem i tag attrs cs)
        let href := (attr_of attrs "href").getD ""
        if text = "" && href = "" then ""
        else if text = "" || href = "" then text
        else "[" ++ text ++ "](" ++ resolve_url ctx.join href ctx.base_url ++ ")"
      | "img" => handle_image ctx.join ctx.base_url attrs
      | "ul" => render_list false (list_item_strs ctx depth cs)
      | "ol" => render_list true (list_item_strs ctx depth cs)
      | "li" =>
        let s := rust_trim (walk_children ctx depth tag cs)
        if s = "" then "" else "- " ++ s ++ "\n"
      | "blockquote" => bq_render (walk_children ctx depth tag cs)
      | "code" =>
        if pt = some "pre" then get_text_content (.elem i tag attrs cs)
        else
          let t := get_text_content (.elem i tag attrs cs)
          if t = "" then "" else "`" ++ t ++ "`"
      | "tt" =>
        if pt = some "pre" then get_text_content (.elem i tag attrs cs)
        else
          let t := get_text_content (.elem i tag attrs cs)
          if t = "" then "" else "`" ++ t ++ "`"
      | "pre" =>
        let t := rust_trim (get_raw_text (.elem i tag attrs cs))
        if t = "" then "" else "```\n" ++ t ++ "\n```\n\n"
      | "table" =>
        let has_nested := (elems_l cs).any fun e => tag_of e = "table"
        let rows0 := direct_children_by_tags ["tr"] cs
        let rows :=
          if rows0.isEmpty then
            ((direct_children_by_tags ["thead", "tbody", "tfoot"] cs).map fun s =>
              direct_children_by_tags ["tr"] (children_of s)).flatten
          else rows0
        match rows with
        | [] => if has_nested then walk_children ctx depth tag cs else ""
        | r0 :: _ =>
          let first_row_cells := direct_children_by_tags ["td", "th"] (children_of r0)
          let has_block_children := first_row_cells.any fun cell =>
            (children_of cell).any fun c =>
              match c with
              | .elem _ t _ _ => BLOCK_LIKE_TAGS.contains t
              | .text _ => false
          let looks_like_layout :=
            !first_row_cells.isEmpty && decide (first_row_cells.length ≤ 2) &&
              decide (15 ≤ rows.length)
          if has_nested || has_block_children || looks_like_layout then
            walk_children ctx (if ctx.dedupe_tables then depth + 1 else depth) tag cs
          else data_table_md rows
      | "thead" => walk_children ctx depth tag cs
      | "tbody" => walk_children ctx depth tag cs
      | "tfoot" => walk_children ctx depth tag cs
      | "tr" =>
        if ctx.dedupe_tables && decide (0 < depth) then walk_children ctx depth tag cs
        else
          let cells := direct_children_by_tags ["td", "th"] cs
          if cells.isEmpty then ""
          else "| " ++ String.intercalate " | " (cells.map get_text_content) ++ " |\n"
      | _ => walk_children ctx depth tag cs

/-- Rust `Walker::walk_children`: recurse into element children, append each
text child trimmed (empty results contribute nothing); `ptag` is the tag of
the element whose children these are. -/
def walk_children {U : Type} (ctx : WalkCtx U) (depth : Nat) (ptag : String) :
    List HNode → String
  | [] => ""
  | .text s :: rest => rust_trim s ++ walk_children ctx depth ptag rest
  | .elem i t a ccs :: rest =>
    walk ctx depth (some ptag) (.elem i t a ccs) ++ walk_children ctx depth ptag rest

/-- Rust `Walker::handle_list` head: the trimmed `children_to_string` of every
direct `li` child, in order (empty items kept, to be skipped by the
renderer). -/
def list_item_strs {U : Type} (ctx : WalkCtx U) (depth : Nat) :
    List HNode → List String
  | [] => []
  | .elem _ t _ ccs :: rest =>
    if t = "li" then rust_trim (walk_children ctx depth "li" ccs) :: list_item_strs ctx depth rest
    else list_item_strs ctx depth rest
  | .text _ :: rest => list_item_strs ctx depth rest
end

-- ===========================================================================
-- Citation / link / image post-processing (regex models)
-- ===========================================================================

/-- One match of the link/image pattern
`!?\[([^\]]+)\]\(([^)]+?)(?:\s+"([^"]*)")?\)` (RE_LINK) or of
`!\[([^\]]*)\]\(...\)` (RE_IMAGE): the full matched text and the three capture
groups (absent title captured as `[]`, like Rust's `map_or("", ..)`). -/
structure LMRec where
  full : List Char
  text : List Char
  url : List Char
  title : List Char

/-- The optional-title suffix `(?:\s+"([^"]*)")?\)` of RE_LINK/RE_IMAGE tried
at `cs`: the quoted-title branch is preferred (regex greedy option), then the
bare `)`.  Returns the consumed characters, the title capture and the rest. -/
def title_suffix (cs : List Char) : Option (List Char × List Char × List Char) :=
  let ws := cs.takeWhile is_rust_whitespace
  let afterWs := cs.dropWhile is_rust_whitespace
  let withTitle :=
    if ws.isEmpty then none
    else
      match afterWs with
      | '"' :: r1 =>
        let ti := r1.takeWhile (· ≠ '"')
        match r1.dropWhile (· ≠ '"') with
        | '"' :: ')' :: r2 => some (ws ++ '"' :: ti ++ ['"', ')'], ti, r2)
        | _ => none
      | _ => none
  match withTitle with
  | some x => some x
  | none =>
    match cs with
    | ')' :: r => some ([')'], [], r)
    | _ => none

/-- The lazy URL group `([^)]+?)` followed by the title suffix: extend the URL
one non-`)` character at a time, testing the suffix after each character.
Returns (url, suffix consumed, title, rest). -/
def url_go (acc : List Char) : List Char → Option (List Char × List Char × List Char × List Char)
  | [] => none
  | c :: r =>
    if c = ')' then none
    else
      match title_suffix r with
      | some (cons, ti, rest) => some (acc ++ [c], cons, ti, rest)
      | none => url_go (acc ++ [c]) r

/-- The bracket core `\[(text)\]\((url)(title?)\)` tried at `cs` (after any
`!`); `need_text` is true for RE_LINK (`[^\]]+`), false for RE_IMAGE's alt
(`[^\]]*`).  Returns (core consumed, text, url, title, rest). -/
def bracket_core (need_text : Bool) (cs : List Char) :
    Option (List Char × List Char × List Char × List Char × List Char) :=
  match cs with
  | '[' :: r =>
    let t := r.takeWhile (· ≠ ']')
    if need_text && t.isEmpty then none
    else
      match r.dropWhile (· ≠ ']') with
      | ']' :: '(' :: r2 =>
        match url_go [] r2 with
        | some (u, cons, ti, rest) =>
          some ('[' :: t ++ ']' :: '(' :: (u ++ cons), t, u, ti, rest)
        | none => none
      | _ => none
  | _ => none

/-- RE_LINK tried at exactly this position (leftmost-first semantics: the
optional `!` is consumed when present). -/
def try_link_at (cs : List Char) : Option (LMRec × List Char) :=
  match cs with
  | '!' :: rest =>
    match bracket_core true rest with
    | some (core, t, u, ti, r) => some (⟨'!' :: core, t, u, ti⟩, r)
    | none => none
  | '[' :: _ =>
    match bracket_core true cs with
    | some (core, t, u, ti, r) => some (⟨core, t, u, ti⟩, r)
    | none => none
  | _ => none

/-- RE_IMAGE tried at exactly this position: mandatory `!`, alt may be
empty. -/
def try_img_at (cs : List Char) : Option (LMRec × List Char) :=
  match cs with
  | '!' :: rest =>
    match bracket_core false rest with
    | some (core, t, u, ti, r) => some (⟨'!' :: core, t, u, ti⟩, r)
    | none => none
  | _ => none

/-- `Regex::find_iter`/`captures_iter`: scan left to right, at each position
try the pattern; on a match record it and continue after its end.  One unit of
fuel per step; `fuel = length` suffices since every step consumes at least one
character. -/
def find_matches_go (att : List Char → Option (LMRec × List Char)) :
    Nat → List Char → List LMRec
  | 0, _ => []
  | _ + 1, [] => []
  | f + 1, c :: r =>
    match att (c :: r) with
    | some (m, rest) => m :: find_matches_go att f rest
    | none => find_matches_go att f r

/-- All RE_LINK matches of a text, leftmost first. -/
def find_link_matches (cs : List Char) : List LMRec :=
  find_matches_go try_link_at cs.length cs

/-- All RE_IMAGE matches of a text, leftmost first. -/
def find_img_matches (cs : List Char) : List LMRec :=
  find_matches_go try_img_at cs.length cs

/-- Rust `LinkInfo`. -/
structure LinkInfo where
  text : String
  url : String
  title : String
  citation_number : Nat

/-- Rust `ImageInfo`. -/
structure ImageInfo where
  alt : String
  url : String
  title : String

/-- The citation loop of Rust `extract_links_and_citations`: for each
non-image match in occurrence order, resolve the URL against the base, record
a `LinkInfo` carrying the next citation number, and replace the first
remaining occurrence of the matched text by `text[number]`. -/
def cite_loop {U : Type} (join : U → String → Option String) (base : Option U) :
    List LMRec → Nat → List Char → List LinkInfo × List Char
  | [], _, r => ([], r)
  | m :: ms, k, r =>
    let url_s : String := ⟨m.url⟩
    let resolved :=
      match base with
      | some b =>
        match join b url_s with
        | some u => u
        | none => url_s
      | none => url_s
    let cit : List Char := m.text ++ '[' :: (Nat.repr k).data ++ [']']
    let r2 := replace_first m.full cit r
    let rec_res := cite_loop join base ms (k + 1) r2
    (⟨⟨m.text⟩, resolved, ⟨m.title⟩, k⟩ :: rec_res.1, rec_res.2)

/-- Rust `extract_links_and_citations`: find the RE_LINK matches, drop the
image forms (full match starting with `!`), then run the citation loop with
the counter starting at 1. -/
def extract_links_and_citations {U : Type} (join : U → String → Option String)
    (md : String) (base : Option U) : List LinkInfo × String :=
  let ms := (find_link_matches md.data).filter fun m => !(m.full.take 1 = ['!'])
  let p := cite_loop join base ms 1 md.data
  (p.1, ⟨p.2⟩)

/-- Rust `generate_references`: empty for no links, otherwise a
`## References` block with one `[n]: url` line per link (quoted title appended
when non-empty). -/
def generate_references (links : List LinkInfo) : String :=
  if links.isEmpty then ""
  else
    "## References\n" ++
      str_concat (links.map fun l =>
        "[" ++ Nat.repr l.citation_number ++ "]: " ++ l.url ++
          (if l.title = "" then "" else " \"" ++ l.title ++ "\"") ++ "\n")

/-- The first strip pattern `\[([^\]]+)\]\([^)]+\)` of Rust `strip_links`
tried at this position: greedy nonempty text and URL, no title group.
Returns the replacement (`$1`) and the rest. -/
def strip_link_at (cs : List Char) : Option (List Char × List Char) :=
  match cs with
  | '[' :: r =>
    let t := r.takeWhile (· ≠ ']')
    if t.isEmpty then none
    else
      match r.dropWhile (· ≠ ']') with
      | ']' :: '(' :: r2 =>
        let u := r2.takeWhile (· ≠ ')')
        if u.isEmpty then none
        else
          match r2.dropWhile (· ≠ ')') with
          | ')' :: r3 => some (t, r3)
          | _ => none
      | _ => none
  | _ => none

/-- The second strip pattern `!\[([^\]]*)\]\([^)]+\)` of Rust `strip_links`
tried at this position: mandatory `!`, possibly empty alt. -/
def strip_img_at (cs : List Char) : Option (List Char × List Char) :=
  match cs with
  | '!' :: '[' :: r =>
    let t := r.takeWhile (· ≠ ']')
    match r.dropWhile (· ≠ ']') with
    | ']' :: '(' :: r2 =>
      let u := r2.takeWhile (· ≠ ')')
      if u.isEmpty then none
      else
        match r2.dropWhile (· ≠ ')') with
        | ')' :: r3 => some (t, r3)
        | _ => none
    | _ => none
  | _ => none

/-- One `replace_all` pass over the text with a positional matcher: on a match
emit the replacement and continue after the match, otherwise emit the
character and advance.  One unit of fuel per step. -/
def strip_pass (att : List Char → Option (List Char × List Char)) :
    Nat → List Char → List Char
  | 0, l => l
  | _ + 1, [] => []
  | f + 1, c :: r =>
    match att (c :: r) with
    | some (t, rest) => t ++ strip_pass att f rest
    | none => c :: strip_pass att f r

/-- Rust `strip_links`: replace `[text](url)` by `text`, then `![alt](url)`
by `alt`. -/
def strip_links (md : String) : String :=
  let l1 := strip_pass strip_link_at md.data.length md.data
  ⟨strip_pass strip_img_at l1.length l1⟩

/-- Rust `extract_images`: every RE_IMAGE match as an `ImageInfo`, in
occurrence order. -/
def extract_images (md : String) : List ImageInfo :=
  (find_img_matches md.data).map fun m => ⟨⟨m.text⟩, ⟨m.url⟩, ⟨m.title⟩⟩

-- ===========================================================================
-- Fallback controller and top-level pipeline
-- ===========================================================================

/-- The float comparison `(md_len as f64 / html_len.max(1) as f64) < 0.01` of
Rust `should_fallback`, modelled with exact rational arithmetic. -/
def ratio_lt (ml hl : Nat) : Bool :=
  decide ((ml : ℚ) / (max hl 1 : ℚ) < 1 / 100)

/-- Rust `should_fallback`, checked in order with the first match winning:
empty markdown → fallback; small HTML → never; short markdown → fallback;
tiny markdown/HTML ratio → fallback; Hacker News base URL without its
`item?id=` permalink marker → fallback. -/
def should_fallback (html md base_url : String) : Bool :=
  let hl := utf8_len html
  let ml := utf8_len md
  if ml = 0 then true
  else if hl < 5000 then false
  else if ml < 400 then true
  else if ratio_lt ml hl then true
  else if contains_sub base_url "news.ycombinator.com" && !contains_sub md "item?id=" then true
  else false

/-- The buffer produced by the primary (main-content-restricted) walk. -/
def primary_buf {U : Type} (um : UrlModel U) (base_url : String) (dedupe : Bool)
    (doc : HNode) : String :=
  let skips := build_skip_set doc
  let ctx : WalkCtx U := ⟨um.join, parse_base um.parse base_url, dedupe, skips⟩
  match find_main_content doc skips with
  | some n => walk ctx 0 none n
  | none => ""

/-- The cleaned primary-pass markdown. -/
def primary_raw {U : Type} (um : UrlModel U) (base_url : String) (dedupe : Bool)
    (doc : HNode) : String :=
  clean_markdown (primary_buf um base_url dedupe doc)

/-- The buffer of the fallback pass: the whole document root walked with an
empty skip set. -/
def full_buf {U : Type} (um : UrlModel U) (base_url : String) (dedupe : Bool)
    (doc : HNode) : String :=
  let ctx : WalkCtx U := ⟨um.join, parse_base um.parse base_url, dedupe, []⟩
  walk ctx 0 none doc

/-- The cleaned fallback-pass markdown. -/
def full_raw {U : Type} (um : UrlModel U) (base_url : String) (dedupe : Bool)
    (doc : HNode) : String :=
  clean_markdown (full_buf um base_url dedupe doc)

/-- Rust `PipelineResult`. -/
structure PipelineResult where
  raw_markdown : String
  clean_markdown : String
  markdown_with_citations : String
  references_markdown : String
  markdown_references : String
  markdown_plain : String
  links : List LinkInfo
  images : List ImageInfo
  urls : List String

/-- Rust `run_pipeline`.  `html` is the original HTML text (used only for its
byte length in the fallback decision), `doc` the root the external parser
produced for it. -/
def run_pipeline {U : Type} (um : UrlModel U) (html base_url : String)
    (dedupe : Bool) (doc : HNode) : PipelineResult :=
  let pb := parse_base um.parse base_url
  let raw1 := primary_raw um base_url dedupe doc
  let raw := if should_fallback html raw1 base_url then full_raw um base_url dedupe doc else raw1
  let lc := extract_links_and_citations um.join raw pb
  let links := lc.1
  let md_cit := lc.2
  let references := generate_references links
  let clean := clean_markdown_readable raw
  let plain := strip_links raw
  let images := extract_images raw
  let urls := links.map (·.url)
  let md_refs := if references = "" then md_cit else md_cit ++ "\n\n" ++ references
  ⟨raw, clean, md_cit, references, md_refs, plain, links, images, urls⟩

-- ===========================================================================
-- Fixtures for concrete evaluations
-- ===========================================================================

/-- A trivial URL model (no base is ever parsed): the behaviour of the
pipeline when the caller passes an empty base URL. -/
def um_unit : UrlModel Unit := ⟨fun _ => none, fun _ _ => none⟩

/-- A walker context with no base URL and an empty skip set. -/
def ctx_unit : WalkCtx Unit := ⟨fun _ _ => none, none, true, []⟩

/-- Document whose only content is the text node `"x\n\n- \n\ny"` inside a
paragraph: the cleaner's empty-bullet deletion splices the surrounding blank
lines into a triple newline. -/
def doc_bullet_splice : HNode :=
  .elem 0 "html" [] [.elem 1 "body" [] [.elem 2 "p" [] [.text "x\n\n- \n\ny"]]]

/-- Document whose only content is the literal text `"]("`. -/
def doc_stray_brack : HNode :=
  .elem 0 "html" [] [.elem 1 "body" [] [.elem 2 "p" [] [.text "]("]]]

/-- A table whose first collected row has no cells while its second row has a
`th` cell. -/
def table_empty_first_row : HNode :=
  .elem 10 "table" []
    [.elem 11 "tr" [] [],
     .elem 12 "tr" [] [.elem 13 "th" [] [.text "A"]]]

/-- A small document: `body` containing one paragraph `hi`. -/
def doc_tiny : HNode :=
  .elem 0 "html" [] [.elem 1 "body" [] [.elem 2 "p" [] [.text "hi"]]]

/-- A 5000-byte HTML input (content irrelevant: only its length feeds the
fallback decision). -/
def html_5000 : String := ⟨List.replicate 5000 'x'⟩

/-- The nav subtree of `doc_nav`. -/
def nav_subtree : HNode :=
  .elem 2 "nav" [] [.elem 3 "a" [("href", "/home")] [.text "Home"]]

/-- A document containing a `nav` element with a child link. -/
def doc_nav : HNode :=
  .elem 0 "html" []
    [.elem 1 "body" [] [nav_subtree, .elem 4 "p" [] [.text "content"]]]

-- ===========================================================================
-- Size measure and element lists (used for skip-set reasoning)
-- ===========================================================================

mutual
/-- Node count of a subtree. -/
def hsize : HNode → Nat
  | .text _ => 1
  | .elem _ _ _ cs => 1 + hsize_l cs
/-- Node count of a forest. -/
def hsize_l : List HNode → Nat
  | [] => 0
  | c :: cs => hsize c + hsize_l cs
end

-- ===========================================================================
-- Token grammar for link-stripping (used to state the amended C7)
-- ===========================================================================

/-- A token of well-bracketed markdown: a plain segment, a link construct
`[text](url)`, or an image construct `![alt](url)`. -/
inductive Tok where
  | seg (s : List Char)
  | link (t u : List Char)
  | img (a u : List Char)

/-- Characters that may not occur inside token payloads (they delimit the
link/image syntax). -/
def tok_ok_char (c : Char) : Bool :=
  !(c = '[' || c = ']' || c = '!' || c = ')')

/-- Well-formedness of a token: payloads avoid the delimiter characters, link
text and URLs are non-empty (image alt may be empty). -/
def tok_wf : Tok → Bool
  | .seg s => s.all tok_ok_char
  | .link t u => !t.isEmpty && t.all tok_ok_char && !u.isEmpty && u.all tok_ok_char
  | .img a u => a.all tok_ok_char && !u.isEmpty && u.all tok_ok_char

/-- The rendered characters of a token. -/
def tok_render : Tok → List Char
  | .seg s => s
  | .link t u => '[' :: t ++ ']' :: '(' :: u ++ [')']
  | .img a u => '!' :: '[' :: a ++ ']' :: '(' :: u ++ [')']

/-- What the first strip pass (`[text](url)` → `text`) leaves of a token. -/
def tok_pass1_out : Tok → List Char
  | .seg s => s
  | .link t _ => t
  | .img a u => if a.isEmpty then '!' :: '[' :: ']' :: '(' :: u ++ [')'] else '!' :: a

/-- What the second strip pass (`![alt](url)` → `alt`) leaves of a token. -/
def tok_pass2_out : Tok → List Char
  | .seg s => s
  | .link t _ => t
  | .img a _ => if a.isEmpty then [] else '!' :: a

-- ===========================================================================
-- Theorems
-- ===========================================================================

-- C1: citation numbers -------------------------------------------------------

theorem cite_loop_numbers {U : Type} (join : U → String → Option String)
    (base : Option U) :
    ∀ (ms : List LMRec) (k : Nat) (r : List Char),
      ((cite_loop join base ms k r).1.map (·.citation_number)) = List.range' k ms.length := by
  intro ms
  induction ms with
  | nil => intro k r; simp [cite_loop]
  | cons m ms ih =>
    intro k r
    simp [cite_loop, List.range', ih]

/-- C1: for every invocation, the citation numbers of the returned links list
are exactly the dense sequence `1..N`, where `N` is the number of RE_LINK
matches of the final cleaned text that do not begin with `'!'`; assignment
order equals first-occurrence order. -/
theorem run_pipeline_citation_numbers_dense {U : Type} (um : UrlModel U)
    (html base_url : String) (dedupe : Bool) (doc : HNode) :
    ((run_pipeline um html base_url dedupe doc).links.map (·.citation_number)) =
      List.range' 1 ((find_link_matches
        ((run_pipeline um html base_url dedupe doc).raw_markdown).data).filter
          (fun m => !(m.full.take 1 = ['!']))).length := by
  unfold run_pipeline
  simp only [extract_links_and_citations]
  rw [cite_loop_numbers]

-- C5: text-node handling -----------------------------------------------------

/-- C5 counterexample: the walker appends a text node merely trimmed — the
interior newline of `"a\nb"` is preserved, not collapsed to a space as the
claim states. -/
theorem walk_children_text_not_ws_collapsed :
    walk_children ctx_unit 0 "p" [.text "a\nb"] = "a\nb" ∧
    normalize_ws "a\nb" = "a b" ∧ ("a\nb" : String) ≠ "a b" := by
  refine ⟨by decide, by decide, by decide⟩

/-- C5 (amended): the content appended for each text node is that node's text
trimmed at both ends (interior whitespace, including newlines, preserved
verbatim); a text empty after trimming contributes nothing.  Whitespace-run
collapsing happens only in the flattened-text contexts that use
`get_text_content`. -/
theorem walk_children_text_nodes {U : Type} (ctx : WalkCtx U) (depth : Nat)
    (ptag : String) (ts : List String) :
    walk_children ctx depth ptag (ts.map .text) = str_concat (ts.map rust_trim) := by
  induction ts with
  | nil => rfl
  | cons s r ih => simp [walk_children, str_concat, ih]

-- C6: data-table header separator -------------------------------------------

/-- C6 counterexample: a data table whose first collected row has no cells.
Its first *emitted* row `| A |` contains a `th` cell, yet no `---` separator
is rendered, because the header check inspects only the first collected
row. -/
theorem table_sep_first_emitted_row_cex :
    walk ctx_unit 0 none table_empty_first_row = "| A |\n\n" ∧
    ([.elem 11 "tr" [] [], .elem 12 "tr" [] [.elem 13 "th" [] [.text "A"]]] :
        List HNode).filterMap row_md_of = ["| A |"] ∧
    (direct_children_by_tags ["td", "th"]
        (children_of (.elem 12 "tr" [] [.elem 13 "th" [] [.text "A"]]))).any
      (fun c => tag_of c = "th") = true ∧
    list_contains_sub ['-', '-', '-'] (walk ctx_unit 0 none table_empty_first_row).data = false := by
  refine ⟨by decide, by decide, by decide, by decide⟩

/-- C6 (amended): for a table rendered through the data-table branch whose
first *collected* row has `K ≥ 1` cells including at least one `th` cell, the
output is that row's line followed immediately by a separator row of exactly
`K` `---` cells, then the remaining rows.  (When the first collected row has
no cells, no separator is emitted even if the first emitted row has `th`
cells.) -/
theorem data_table_md_header_separator (rows : List HNode) (r0 : HNode)
    (rtl : List HNode) (hrows : rows = r0 :: rtl)
    (hcells : direct_children_by_tags ["td", "th"] (children_of r0) ≠ [])
    (hth : (direct_children_by_tags ["td", "th"] (children_of r0)).any
      (fun c => tag_of c = "th") = true) :
    data_table_md rows =
      str_concat
        [table_row_md (direct_children_by_tags ["td", "th"] (children_of r0)) ++ "\n",
         sep_row_md (direct_children_by_tags ["td", "th"] (children_of r0)).length ++ "\n",
         str_concat ((rtl.filterMap row_md_of).map (fun r => r ++ "\n")),
         "\n"] := by
  subst hrows
  have hne' : (direct_children_by_tags ["td", "th"] (children_of r0)).isEmpty = false := by
    simpa [List.isEmpty_iff] using hcells
  have hlen : 0 < (direct_children_by_tags ["td", "th"] (children_of r0)).length :=
    List.length_pos.mpr hcells
  have hmd : row_md_of r0 =
      some (table_row_md (direct_children_by_tags ["td", "th"] (children_of r0))) := by
    rw [row_md_of]
    simp [hne']
  unfold data_table_md
  simp only [List.filterMap_cons, hmd, hth, List.isEmpty_cons, Bool.false_eq_true,
    if_false, Bool.true_and, decide_eq_true_eq, if_pos hlen]
  rw [List.insertIdx_succ_cons, List.insertIdx_zero]
  simp [str_concat, String.append_assoc, String.append_empty]

-- C8: URL resolution ---------------------------------------------------------

/-- C8: URL resolution never signals an error.  With no base (absent or
unparsable) the raw attribute string is returned verbatim; with a base, a
successful join is returned and a failed join degrades to the raw string; an
absolute URL (for a join model that returns absolute references unchanged, as
the spec describes the external WHATWG join) comes back unchanged. -/
theorem resolve_url_total_best_effort {U : Type}
    (join : U → String → Option String) (abs : String → Bool)
    (h_abs : ∀ (b : U) (s : String), abs s = true → join b s = some s) :
    (∀ href : String, resolve_url join href (none : Option U) = href) ∧
    (∀ (b : U) (href u : String), href ≠ "" → join b href = some u →
      resolve_url join href (some b) = u) ∧
    (∀ (b : U) (href : String), join b href = none →
      resolve_url join href (some b) = href) ∧
    (∀ (b : U) (href : String), href ≠ "" → abs href = true →
      resolve_url join href (some b) = href) ∧
    (∀ (parse : String → Option U) (base_url href : String),
      parse_base parse base_url = none →
      resolve_url join href (parse_base parse base_url) = href) := by
  refine ⟨?_, ?_, ?_, ?_, ?_⟩
  · intro href
    rw [resolve_url]
    split <;> simp_all
  · intro b href u hne hj
    rw [resolve_url, if_neg hne, hj]
  · intro b href hj
    rw [resolve_url]
    split
    · simp_all
    · rw [hj]
  · intro b href hne habs
    rw [resolve_url, if_neg hne, h_abs b href habs]
  · intro parse base_url href hp
    rw [hp, resolve_url]
    split <;> simp_all

theorem resolve_url_total_best_effort_witness :
    resolve_url (fun (_ : Unit) (s : String) => some s) "x" none = "x" ∧
    resolve_url (fun (_ : Unit) (s : String) => some s) "https://a" (some ()) = "https://a" := by
  have h := resolve_url_total_best_effort (fun (_ : Unit) (s : String) => some s)
    (fun _ => true) (fun _ _ _ => rfl)
  exact ⟨h.1 "x", h.2.2.2.1 () "https://a" (by decide) rfl⟩

-- C10: image alt handling ----------------------------------------------------

/-- C10: for an `img` with non-empty `src`, an `alt` attribute that is present
but empty yields `![](resolvedSrc)`; the literal default `"Image"` is used
only when `alt` is entirely absent.  The walker's `img` case is exactly
`handle_image`. -/
theorem handle_image_empty_alt_vs_missing {U : Type}
    (join : U → String → Option String) (base : Option U)
    (attrs : List (String × String)) (src : String)
    (hsrc : attr_of attrs "src" = some src) (hne : src ≠ "")
    (htitle : attr_of attrs "title" = none) :
    (attr_of attrs "alt" = some "" →
      handle_image join base attrs = "![](" ++ resolve_url join src base ++ ")") ∧
    (attr_of attrs "alt" = none →
      handle_image join base attrs = "![Image](" ++ resolve_url join src base ++ ")") ∧
    (∀ (ctx : WalkCtx U) (depth : Nat) (pt : Option String) (i : Nat) (cs : List HNode),
      should_skip "img" attrs = false → ctx.skip_ids.contains i = false →
      ctx.join = join → ctx.base_url = base →
      walk ctx depth pt (.elem i "img" attrs cs) = handle_image join base attrs) := by
  refine ⟨?_, ?_, ?_⟩
  · intro halt
    rw [handle_image, hsrc, htitle, halt]
    simp only [Option.getD_some, Option.getD_none, if_neg hne, if_true, ite_true,
      String.append_empty]
    rw [show ("![" ++ "](" : String) = "![](" from rfl]
  · intro halt
    rw [handle_image, hsrc, htitle, halt]
    simp only [Option.getD_some, Option.getD_none, if_neg hne, if_true, ite_true,
      String.append_empty]
    rw [show ("![" ++ "Image" ++ "](" : String) = "![Image](" from rfl]
  · intro ctx depth pt i cs hskip hid hj hb
    rw [walk, hskip, hid]
    simp [hj, hb]

theorem handle_image_empty_alt_vs_missing_witness :
    handle_image (fun (_ : Unit) (_ : String) => none) none
        [("src", "t.png"), ("alt", "")] = "![](t.png)" ∧
    handle_image (fun (_ : Unit) (_ : String) => none) none
        [("src", "t.png")] = "![Image](t.png)" := by
  refine ⟨?_, ?_⟩
  · have h := (handle_image_empty_alt_vs_missing (fun (_ : Unit) (_ : String) => none)
      none [("src", "t.png"), ("alt", "")] "t.png" (by decide) (by decide) (by decide)).1 (by decide)
    rw [h]; decide
  · have h := (handle_image_empty_alt_vs_missing (fun (_ : Unit) (_ : String) => none)
      none [("src", "t.png")] "t.png" (by decide) (by decide) (by decide)).2.1 (by decide)
    rw [h]; decide

theorem data_table_md_header_separator_witness :
    data_table_md
        [.elem 3 "tr" [] [.elem 4 "th" [] [.text "Name"], .elem 5 "th" [] [.text "Age"]],
         .elem 6 "tr" [] [.elem 7 "td" [] [.text "Alice"], .elem 8 "td" [] [.text "30"]]] =
      "| Name | Age |\n| --- | --- |\n| Alice | 30 |\n\n" := by
  have hc : direct_children_by_tags ["td", "th"]
      (children_of (HNode.elem 3 "tr" []
        [HNode.elem 4 "th" [] [HNode.text "Name"], HNode.elem 5 "th" [] [HNode.text "Age"]])) ≠ [] :=
    List.cons_ne_nil _ _
  rw [data_table_md_header_separator _ _ _ rfl hc (by decide)]
  decide

-- C2: fallback decision and full-document re-walk ----------------------------

/-- C2: when the HTML is at least 5000 bytes and the primary-pass cleaned
markdown is under 400 bytes, the pipeline's final raw markdown is the result
of walking the full document root with an empty skip set and re-cleaning; and
the fallback decision is the ordered first-match-wins chain: empty markdown →
fallback, HTML < 5000 → never, markdown < 400 → fallback, ratio < 0.01 →
fallback, Hacker News base URL without `item?id=` → fallback, otherwise no
fallback. -/
theorem fallback_sparse_replaces_primary {U : Type} (um : UrlModel U)
    (html base_url : String) (dedupe : Bool) (doc : HNode)
    (h1 : 5000 ≤ utf8_len html)
    (h2 : utf8_len (primary_raw um base_url dedupe doc) < 400) :
    (run_pipeline um html base_url dedupe doc).raw_markdown =
        full_raw um base_url dedupe doc ∧
    (∀ h m b : String, utf8_len m = 0 → should_fallback h m b = true) ∧
    (∀ h m b : String, utf8_len m ≠ 0 → utf8_len h < 5000 →
      should_fallback h m b = false) ∧
    (∀ h m b : String, 5000 ≤ utf8_len h → utf8_len m < 400 →
      should_fallback h m b = true) ∧
    (∀ h m b : String, 5000 ≤ utf8_len h → 400 ≤ utf8_len m →
      ratio_lt (utf8_len m) (utf8_len h) = true → should_fallback h m b = true) ∧
    (∀ h m b : String, 5000 ≤ utf8_len h → 400 ≤ utf8_len m →
      ratio_lt (utf8_len m) (utf8_len h) = false →
      contains_sub b "news.ycombinator.com" = true → contains_sub m "item?id=" = false →
      should_fallback h m b = true) ∧
    (∀ h m b : String, 5000 ≤ utf8_len h → 400 ≤ utf8_len m →
      ratio_lt (utf8_len m) (utf8_len h) = false →
      (contains_sub b "news.ycombinator.com" = false ∨ contains_sub m "item?id=" = true) →
      should_fallback h m b = false) := by
  refine ⟨?_, ?_, ?_, ?_, ?_, ?_, ?_⟩
  · have hsf : should_fallback html (primary_raw um base_url dedupe doc) base_url = true := by
      simp only [should_fallback]
      by_cases h0 : utf8_len (primary_raw um base_url dedupe doc) = 0
      · rw [if_pos h0]
      · rw [if_neg h0, if_neg (by omega : ¬ utf8_len html < 5000), if_pos h2]
    unfold run_pipeline
    simp only [hsf, if_true]
  · intro h m b h0
    simp only [should_fallback]
    rw [if_pos h0]
  · intro h m b h0 hlt
    simp only [should_fallback]
    rw [if_neg h0, if_pos hlt]
  · intro h m b hge hlt
    simp only [should_fallback]
    by_cases h0 : utf8_len m = 0
    · rw [if_pos h0]
    · rw [if_neg h0, if_neg (by omega : ¬ utf8_len h < 5000), if_pos hlt]
  · intro h m b hge hm hr
    simp only [should_fallback]
    rw [if_neg (by omega : ¬ utf8_len m = 0), if_neg (by omega : ¬ utf8_len h < 5000),
      if_neg (by omega : ¬ utf8_len m < 400), if_pos hr]
  · intro h m b hge hm hr hb hmarker
    simp only [should_fallback]
    rw [if_neg (by omega : ¬ utf8_len m = 0), if_neg (by omega : ¬ utf8_len h < 5000),
      if_neg (by omega : ¬ utf8_len m < 400), hr, if_neg (by simp), hb, hmarker]
    simp
  · intro h m b hge hm hr hor
    simp only [should_fallback]
    rw [if_neg (by omega : ¬ utf8_len m = 0), if_neg (by omega : ¬ utf8_len h < 5000),
      if_neg (by omega : ¬ utf8_len m < 400), hr, if_neg (by simp)]
    rcases hor with hb | hmk
    · rw [hb]
      simp
    · rw [hmk]
      simp

theorem utf8_len_replicate_x (n : Nat) : utf8_len ⟨List.replicate n 'x'⟩ = n := by
  simp [utf8_len, char_utf8_bytes]

theorem fallback_sparse_replaces_primary_witness :
    5000 ≤ utf8_len html_5000 ∧
    utf8_len (primary_raw um_unit "" true doc_tiny) < 400 ∧
    (run_pipeline um_unit html_5000 "" true doc_tiny).raw_markdown =
      full_raw um_unit "" true doc_tiny := by
  have h1 : 5000 ≤ utf8_len html_5000 := by
    rw [show html_5000 = ⟨List.replicate 5000 'x'⟩ from rfl, utf8_len_replicate_x]
  have h2 : utf8_len (primary_raw um_unit "" true doc_tiny) < 400 := by decide
  exact ⟨h1, h2, (fallback_sparse_replaces_primary um_unit html_5000 "" true doc_tiny h1 h2).1⟩

-- C3/C4 machinery: run capping, bullet deletion, trimming -------------------

theorem cap_runs_go_bound (c : Char) (cap : Nat) :
    ∀ (l : List Char) (cnt : Nat),
      ¬ (List.replicate (cap + 1) c <:+: cap_runs_go c cap cnt l) ∧
      ¬ (List.replicate (max (cap + 1 - cnt) 1) c <+: cap_runs_go c cap cnt l) := by
  intro l
  induction l with
  | nil =>
    intro cnt
    constructor
    · rw [cap_runs_go, List.infix_nil, List.replicate_eq_nil_iff]
      omega
    · rw [cap_runs_go, List.prefix_nil, List.replicate_eq_nil_iff]
      omega
  | cons x xs ih =>
    intro cnt
    by_cases hx : x = c
    · subst hx
      by_cases hlt : cnt < cap
      · have hout : cap_runs_go x cap cnt (x :: xs) = x :: cap_runs_go x cap (cnt + 1) xs := by
          simp [cap_runs_go, hlt]
        rw [hout]
        obtain ⟨ih1, ih2⟩ := ih (cnt + 1)
        have hmax : max (cap + 1 - (cnt + 1)) 1 = cap - cnt := by omega
        rw [hmax] at ih2
        constructor
        · intro h
          rw [List.infix_cons_iff] at h
          rcases h with h | h
          · rw [List.replicate_succ, List.cons_prefix_cons] at h
            have hsub : List.replicate (cap - cnt) x <+: List.replicate cap x := by
              have h2 : List.replicate cap x =
                  List.replicate (cap - cnt) x ++ List.replicate cnt x := by
                rw [← List.replicate_add]
                congr 1
                omega
              rw [h2]
              exact List.prefix_append _ _
            exact ih2 (hsub.trans h.2)
          · exact ih1 h
        · intro h
          rw [show max (cap + 1 - cnt) 1 = (cap - cnt) + 1 by omega, List.replicate_succ,
            List.cons_prefix_cons] at h
          exact ih2 h.2
      · have hout : cap_runs_go x cap cnt (x :: xs) = cap_runs_go x cap (cnt + 1) xs := by
          simp [cap_runs_go, hlt]
        rw [hout]
        obtain ⟨ih1, ih2⟩ := ih (cnt + 1)
        refine ⟨ih1, ?_⟩
        rw [show max (cap + 1 - cnt) 1 = max (cap + 1 - (cnt + 1)) 1 by omega]
        exact ih2
    · have hout : cap_runs_go c cap cnt (x :: xs) = x :: cap_runs_go c cap 0 xs := by
        simp [cap_runs_go, hx]
      rw [hout]
      obtain ⟨ih1, ih2⟩ := ih 0
      have hrep : ∀ (j : Nat) (t : List Char), ¬ (List.replicate (max j 1) c <+: x :: t) := by
        intro j t h
        rw [show max j 1 = (max j 1 - 1) + 1 by omega, List.replicate_succ,
          List.cons_prefix_cons] at h
        exact hx h.1.symm
      constructor
      · intro h
        rw [List.infix_cons_iff] at h
        rcases h with h | h
        · exact hrep (cap + 1) _ (by rwa [show max (cap + 1) 1 = cap + 1 by omega])
        · exact ih1 h
      · exact hrep _ _

theorem cap_runs_no_over (c : Char) (cap : Nat) (l : List Char) :
    ¬ (List.replicate (cap + 1) c <:+: cap_runs c cap l) :=
  (cap_runs_go_bound c cap l 0).1

theorem cap_runs_go_id (c : Char) (cap : Nat) :
    ∀ (l : List Char) (cnt : Nat),
      ¬ (List.replicate (cap + 1 - cnt) c <+: l) →
      ¬ (List.replicate (cap + 1) c <:+: l) →
      cap_runs_go c cap cnt l = l := by
  intro l
  induction l with
  | nil => intro cnt _ _; rfl
  | cons x xs ih =>
    intro cnt hp hi
    by_cases hx : x = c
    · subst hx
      have hlt : cnt < cap := by
        by_contra hge
        apply hp
        rcases (by omega : cap + 1 - cnt = 0 ∨ cap + 1 - cnt = 1) with h | h
        · rw [h]
          exact List.nil_prefix
        · rw [h]
          exact ⟨xs, rfl⟩
      rw [show cap_runs_go x cap cnt (x :: xs) = x :: cap_runs_go x cap (cnt + 1) xs by
        simp [cap_runs_go, hlt]]
      congr 1
      apply ih (cnt + 1)
      · intro h
        apply hp
        rw [show cap + 1 - cnt = (cap + 1 - (cnt + 1)) + 1 by omega, List.replicate_succ,
          List.cons_prefix_cons]
        exact ⟨rfl, h⟩
      · exact fun h => hi (List.infix_cons h)
    · rw [show cap_runs_go c cap cnt (x :: xs) = x :: cap_runs_go c cap 0 xs by
        simp [cap_runs_go, hx]]
      congr 1
      apply ih 0
      · intro h
        rw [Nat.sub_zero] at h
        exact hi (List.infix_cons h.isInfix)
      · exact fun h => hi (List.infix_cons h)

theorem cap_runs_id (c : Char) (cap : Nat) (l : List Char)
    (h : ¬ (List.replicate (cap + 1) c <:+: l)) : cap_runs c cap l = l :=
  cap_runs_go_id c cap l 0 (by rw [Nat.sub_zero]; exact fun hp => h hp.isInfix) h

theorem cap_runs_go_prefix_pullback (c c' : Char) (cap' : Nat) (hne : c ≠ c')
    (hcap : 0 < cap') :
    ∀ (l : List Char) (i : Nat),
      List.replicate i c <+: cap_runs_go c' cap' 0 l → List.replicate i c <+: l := by
  intro l
  induction l with
  | nil => intro i h; rwa [cap_runs_go] at h
  | cons x xs ih =>
    intro i h
    cases i with
    | zero => exact List.nil_prefix
    | succ j =>
      by_cases hx : x = c'
      · subst hx
        rw [show cap_runs_go x cap' 0 (x :: xs) = x :: cap_runs_go x cap' 1 xs by
          simp [cap_runs_go, hcap]] at h
        rw [List.replicate_succ, List.cons_prefix_cons] at h
        exact absurd h.1 hne
      · rw [show cap_runs_go c' cap' 0 (x :: xs) = x :: cap_runs_go c' cap' 0 xs by
          simp [cap_runs_go, hx]] at h
        rw [List.replicate_succ, List.cons_prefix_cons] at h
        rw [List.replicate_succ, List.cons_prefix_cons]
        exact ⟨h.1, ih j h.2⟩

theorem cap_runs_go_infix_pullback (c c' : Char) (cap' : Nat) (hne : c ≠ c')
    (hcap : 0 < cap') :
    ∀ (l : List Char) (cnt j : Nat), 0 < j →
      List.replicate j c <:+: cap_runs_go c' cap' cnt l → List.replicate j c <:+: l := by
  intro l
  induction l with
  | nil =>
    intro cnt j hj h
    rw [cap_runs_go, List.infix_nil, List.replicate_eq_nil_iff] at h
    omega
  | cons x xs ih =>
    intro cnt j hj h
    by_cases hx : x = c'
    · subst hx
      by_cases hlt : cnt < cap'
      · rw [show cap_runs_go x cap' cnt (x :: xs) = x :: cap_runs_go x cap' (cnt + 1) xs by
          simp [cap_runs_go, hlt]] at h
        rw [List.infix_cons_iff] at h
        rcases h with h | h
        · rw [show j = (j - 1) + 1 by omega, List.replicate_succ, List.cons_prefix_cons] at h
          exact absurd h.1 hne
        · exact List.infix_cons (ih _ _ hj h)
      · rw [show cap_runs_go x cap' cnt (x :: xs) = cap_runs_go x cap' (cnt + 1) xs by
          simp [cap_runs_go, hlt]] at h
        exact List.infix_cons (ih _ _ hj h)
    · rw [show cap_runs_go c' cap' cnt (x :: xs) = x :: cap_runs_go c' cap' 0 xs by
        simp [cap_runs_go, hx]] at h
      rw [List.infix_cons_iff] at h
      rcases h with h | h
      · obtain ⟨k, rfl⟩ : ∃ k, j = k + 1 := ⟨j - 1, by omega⟩
        rw [List.replicate_succ, List.cons_prefix_cons] at h
        apply List.IsPrefix.isInfix
        rw [List.replicate_succ, List.cons_prefix_cons]
        exact ⟨h.1, cap_runs_go_prefix_pullback c c' cap' hne hcap xs k h.2⟩
      · exact List.infix_cons (ih _ _ hj h)

theorem cap_runs_keeps_no_run (c c' : Char) (cap cap' : Nat) (hne : c ≠ c')
    (hcap : 0 < cap') (l : List Char)
    (h : ¬ (List.replicate (cap + 1) c <:+: l)) :
    ¬ (List.replicate (cap + 1) c <:+: cap_runs c' cap' l) :=
  fun hh => h (cap_runs_go_infix_pullback c c' cap' hne hcap l 0 (cap + 1) (by omega) hh)

theorem rtrim_l_decomp : ∀ l : List Char, ∃ post, l = rtrim_l l ++ post := by
  intro l
  induction l with
  | nil => exact ⟨[], rfl⟩
  | cons c r ih =>
    obtain ⟨post, hpost⟩ := ih
    simp only [rtrim_l]
    split
    · exact ⟨c :: r, rfl⟩
    · exact ⟨post, by rw [List.cons_append, ← hpost]⟩

theorem trim_l_infix_self (l : List Char) : trim_l l <:+: l := by
  rw [trim_l]
  obtain ⟨post, hpost⟩ := rtrim_l_decomp (l.dropWhile is_rust_whitespace)
  refine ⟨l.takeWhile is_rust_whitespace, post, ?_⟩
  rw [List.append_assoc, ← hpost]
  exact List.takeWhile_append_dropWhile _ _

theorem dropWhile_head_false (p : Char → Bool) :
    ∀ (l : List Char) (x : Char), (l.dropWhile p).head? = some x → p x = false := by
  intro l
  induction l with
  | nil => intro x h; simp [List.dropWhile] at h
  | cons c r ih =>
    intro x h
    by_cases hc : p c
    · rw [List.dropWhile_cons, if_pos hc] at h
      exact ih x h
    · rw [List.dropWhile_cons, if_neg hc] at h
      cases h
      exact Bool.eq_false_iff.mpr hc

theorem rtrim_l_head : ∀ l : List Char, rtrim_l l = [] ∨ (rtrim_l l).head? = l.head? := by
  intro l
  induction l with
  | nil => exact Or.inl rfl
  | cons c r _ =>
    simp only [rtrim_l]
    split
    · exact Or.inl rfl
    · exact Or.inr rfl

theorem rtrim_l_idem : ∀ l : List Char, rtrim_l (rtrim_l l) = rtrim_l l := by
  intro l
  induction l with
  | nil => rfl
  | cons c r ih =>
    simp only [rtrim_l]
    split
    · rfl
    · rename_i h
      simp only [rtrim_l, ih]
      split
      · rename_i h2
        exact absurd h2 h
      · rfl

theorem trim_l_idem (l : List Char) : trim_l (trim_l l) = trim_l l := by
  rw [trim_l, trim_l]
  have hdw : (rtrim_l (l.dropWhile is_rust_whitespace)).dropWhile is_rust_whitespace =
      rtrim_l (l.dropWhile is_rust_whitespace) := by
    rcases rtrim_l_head (l.dropWhile is_rust_whitespace) with h | h
    · rw [h]
      rfl
    · cases hr : rtrim_l (l.dropWhile is_rust_whitespace) with
      | nil => rfl
      | cons x t =>
        have hx : is_rust_whitespace x = false := by
          apply dropWhile_head_false is_rust_whitespace l x
          rw [← h, hr]
          rfl
        rw [List.dropWhile_cons, if_neg (by simp [hx])]
  rw [hdw, rtrim_l_idem]

theorem repl_hyphen_f_id : ∀ (f : Nat) (l : List Char),
    has_li l = false → repl_hyphen_f f l = l := by
  intro f
  induction f with
  | zero => intro l _; rfl
  | succ f ih =>
    intro l h
    cases l with
    | nil => rfl
    | cons c r =>
      rw [has_li, Bool.or_eq_false_iff] at h
      rw [repl_hyphen_f, if_neg (by simp [h.1]), ih r h.2]

theorem repl_hyphen_id (l : List Char) (h : has_li l = false) : repl_hyphen l = l :=
  repl_hyphen_f_id l.length l h

theorem repl_ol_f_id : ∀ (f : Nat) (l : List Char),
    has_ol l = false → repl_ol_f f l = l := by
  intro f
  induction f with
  | zero => intro l _; rfl
  | succ f ih =>
    intro l h
    cases l with
    | nil => rfl
    | cons c r =>
      rw [has_ol, Bool.or_eq_false_iff] at h
      rw [repl_ol_f, if_neg (by simp [h.1]), ih r h.2]

theorem repl_ol_id (l : List Char) (h : has_ol l = false) : repl_ol l = l :=
  repl_ol_f_id l.length l h

theorem clean_markdown_l_no_bullets (l : List Char)
    (hli : has_li (cap_runs ' ' 1 (cap_runs '\n' 2 l)) = false)
    (hol : has_ol (cap_runs ' ' 1 (cap_runs '\n' 2 l)) = false) :
    clean_markdown_l l = trim_l (cap_runs ' ' 1 (cap_runs '\n' 2 l)) := by
  rw [clean_markdown_l, repl_hyphen_id _ hli, repl_ol_id _ hol]

theorem has_li_iff : ∀ l : List Char, has_li l = true ↔ ['\n', '-', ' ', '\n'] <:+: l := by
  intro l
  induction l with
  | nil => simp [has_li, List.infix_nil]
  | cons c r ih =>
    rw [has_li]
    constructor
    · intro h
      rcases (Bool.or_eq_true _ _).mp h with hg | hr
      · simp only [Bool.and_eq_true, decide_eq_true_eq] at hg
        obtain ⟨hc, ht⟩ := hg
        subst hc
        apply List.IsPrefix.isInfix
        rw [show (['\n', '-', ' ', '\n'] : List Char) = '\n' :: ['-', ' ', '\n'] from rfl,
          List.cons_prefix_cons]
        refine ⟨rfl, ?_⟩
        rw [List.prefix_iff_eq_take]
        exact ht.symm
      · exact List.infix_cons (ih.mp hr)
    · intro h
      rw [List.infix_cons_iff] at h
      rcases h with h | h
      · rw [show (['\n', '-', ' ', '\n'] : List Char) = '\n' :: ['-', ' ', '\n'] from rfl,
          List.cons_prefix_cons] at h
        obtain ⟨hc, hp⟩ := h
        apply (Bool.or_eq_true _ _).mpr
        left
        simp only [Bool.and_eq_true, decide_eq_true_eq]
        refine ⟨hc.symm, ?_⟩
        rw [List.prefix_iff_eq_take] at hp
        exact hp.symm
      · exact (Bool.or_eq_true _ _).mpr (Or.inr (ih.mpr h))

theorem takeWhile_all (p : Char → Bool) : ∀ l : List Char, (l.takeWhile p).all p = true := by
  intro l
  induction l with
  | nil => rfl
  | cons c r ih =>
    rw [List.takeWhile_cons]
    by_cases hc : p c
    · rw [if_pos hc, List.all_cons, hc, ih]
      rfl
    · rw [if_neg hc]
      rfl

theorem takeWhile_append_all (p : Char → Bool) :
    ∀ (a : List Char) (x : Char) (b : List Char), a.all p = true → p x = false →
      (a ++ x :: b).takeWhile p = a ∧ (a ++ x :: b).dropWhile p = x :: b := by
  intro a
  induction a with
  | nil =>
    intro x b _ hx
    constructor
    · rw [List.nil_append, List.takeWhile_cons, if_neg (by simp [hx])]
    · rw [List.nil_append, List.dropWhile_cons, if_neg (by simp [hx])]
  | cons y a ih =>
    intro x b hall hx
    rw [List.all_cons, Bool.and_eq_true] at hall
    obtain ⟨hy, ha⟩ := hall
    obtain ⟨ht, hd⟩ := ih x b ha hx
    constructor
    · rw [List.cons_append, List.takeWhile_cons, if_pos hy, ht]
    · rw [List.cons_append, List.dropWhile_cons, if_pos hy, hd]

theorem has_ol_iff : ∀ l : List Char, has_ol l = true ↔ HasOlPat l := by
  intro l
  induction l with
  | nil =>
    simp [has_ol, HasOlPat, List.infix_nil]
  | cons c r ih =>
    rw [has_ol]
    constructor
    · intro h
      rcases (Bool.or_eq_true _ _).mp h with hg | hr
      · simp only [Bool.and_eq_true, decide_eq_true_eq] at hg
        obtain ⟨hc, hol⟩ := hg
        subst hc
        rw [ol_here, Bool.and_eq_true] at hol
        obtain ⟨hne, ht⟩ := hol
        simp only [Bool.not_eq_true', List.isEmpty_eq_false] at hne
        simp only [decide_eq_true_eq] at ht
        refine ⟨r.takeWhile is_nd, hne, takeWhile_all is_nd r, ?_⟩
        apply List.IsPrefix.isInfix
        rw [List.cons_prefix_cons]
        refine ⟨rfl, ?_⟩
        refine ⟨(r.dropWhile is_nd).drop 3, ?_⟩
        rw [List.append_assoc, ← ht, List.take_append_drop, List.takeWhile_append_dropWhile]
      · obtain ⟨ds, h1, h2, h3⟩ := ih.mp hr
        exact ⟨ds, h1, h2, List.infix_cons h3⟩
    · rintro ⟨ds, h1, h2, h3⟩
      rw [List.infix_cons_iff] at h3
      rcases h3 with h3 | h3
      · rw [List.cons_prefix_cons] at h3
        obtain ⟨hc, hp⟩ := h3
        apply (Bool.or_eq_true _ _).mpr
        left
        simp only [Bool.and_eq_true, decide_eq_true_eq]
        refine ⟨hc.symm, ?_⟩
        obtain ⟨t, ht⟩ := hp
        have hr : r = ds ++ ('.' :: ' ' :: '\n' :: t) := by
          rw [← ht, List.append_assoc]
          rfl
        have hdot : is_nd '.' = false := by decide
        obtain ⟨htw, hdw⟩ := takeWhile_append_all is_nd ds '.' (' ' :: '\n' :: t) h2 hdot
        rw [ol_here, hr, htw, hdw]
        simp [h1]
      · exact (Bool.or_eq_true _ _).mpr (Or.inr (ih.mpr ⟨ds, h1, h2, h3⟩))

theorem has_triple_iff (c : Char) : ∀ l : List Char,
    has_triple c l = true ↔ [c, c, c] <:+: l := by
  intro l
  induction l with
  | nil => simp [has_triple, List.infix_nil]
  | cons a r ih =>
    rcases r with _ | ⟨b, r2⟩
    · simp only [has_triple, Bool.false_eq_true, false_iff]
      intro h
      have := h.length_le
      simp at this
    · rcases r2 with _ | ⟨d, r3⟩
      · simp only [has_triple, Bool.false_eq_true, false_iff]
        intro h
        have := h.length_le
        simp at this
      · rw [show has_triple c (a :: b :: d :: r3) =
          ((a = c && b = c && d = c) || has_triple c (b :: d :: r3)) from rfl]
        constructor
        · intro h
          rcases (Bool.or_eq_true _ _).mp h with hg | hr
          · simp only [Bool.and_eq_true, decide_eq_true_eq] at hg
            obtain ⟨⟨ha, hb⟩, hd⟩ := hg
            subst ha; subst hb; subst hd
            exact List.IsPrefix.isInfix ⟨r3, rfl⟩
          · exact List.infix_cons (ih.mp hr)
        · intro h
          rw [List.infix_cons_iff] at h
          rcases h with h | h
          · rw [show ([c, c, c] : List Char) = c :: c :: c :: [] from rfl] at h
            rw [List.cons_prefix_cons] at h
            obtain ⟨h1, h⟩ := h
            rw [List.cons_prefix_cons] at h
            obtain ⟨h2, h⟩ := h
            rw [List.cons_prefix_cons] at h
            obtain ⟨h3, _⟩ := h
            apply (Bool.or_eq_true _ _).mpr
            left
            simp [h1.symm, h2.symm, h3.symm]
          · exact (Bool.or_eq_true _ _).mpr (Or.inr (ih.mpr h))

theorem m_no_triple_nl (l : List Char) :
    ¬ (List.replicate 3 '\n' <:+: cap_runs ' ' 1 (cap_runs '\n' 2 l)) := by
  apply cap_runs_keeps_no_run '\n' ' ' 2 1 (by decide) (by omega)
  exact cap_runs_no_over '\n' 2 l

theorem clean_markdown_l_no_triple (l : List Char)
    (hli : has_li (cap_runs ' ' 1 (cap_runs '\n' 2 l)) = false)
    (hol : has_ol (cap_runs ' ' 1 (cap_runs '\n' 2 l)) = false) :
    has_triple '\n' (clean_markdown_l l) = false := by
  rw [clean_markdown_l_no_bullets l hli hol]
  cases hT : has_triple '\n' (trim_l (cap_runs ' ' 1 (cap_runs '\n' 2 l)))
  · rfl
  · exfalso
    have h3 := (has_triple_iff '\n' _).mp hT
    have h4 : List.replicate 3 '\n' <:+: cap_runs ' ' 1 (cap_runs '\n' 2 l) := by
      have : (['\n', '\n', '\n'] : List Char) = List.replicate 3 '\n' := rfl
      rw [this] at h3
      exact h3.trans (trim_l_infix_self _)
    exact m_no_triple_nl l h4

-- C3: raw cleaner idempotence ------------------------------------------------

/-- C3 counterexample: the empty-bullet deletion is non-overlapping, so
`"a\n- \n- \nb"` cleans to `"a\n- \nb"`, which a second application cleans
further to `"a\nb"`. -/
theorem clean_markdown_not_idempotent :
    clean_markdown (clean_markdown "a\n- \n- \nb") ≠ clean_markdown "a\n- \n- \nb" := by
  decide

/-- C3 (amended): the raw cleaner is idempotent on every input whose
newline-and-space-collapsed form contains no empty `- ` or `N. ` bullet line
(that is, whenever the bullet-deletion passes do not fire); in general a
second application can differ, because deleting an empty bullet line can
splice newlines into a new collapsible run or leave an overlapping bullet
match behind. -/
theorem clean_markdown_idempotent_of_no_empty_bullets (s : String)
    (hli : has_li (cap_runs ' ' 1 (cap_runs '\n' 2 s.data)) = false)
    (hol : has_ol (cap_runs ' ' 1 (cap_runs '\n' 2 s.data)) = false) :
    clean_markdown (clean_markdown s) = clean_markdown s := by
  have hcore := clean_markdown_l_no_bullets s.data hli hol
  have h1 : clean_markdown s = ⟨trim_l (cap_runs ' ' 1 (cap_runs '\n' 2 s.data))⟩ := by
    rw [clean_markdown, hcore]
  rw [h1]
  rw [clean_markdown]
  apply congrArg String.mk
  show clean_markdown_l (trim_l (cap_runs ' ' 1 (cap_runs '\n' 2 s.data))) = _
  have htr := trim_l_infix_self (cap_runs ' ' 1 (cap_runs '\n' 2 s.data))
  have hnl : ¬ (List.replicate 3 '\n' <:+:
      trim_l (cap_runs ' ' 1 (cap_runs '\n' 2 s.data))) :=
    fun h => m_no_triple_nl s.data (h.trans htr)
  have hsp : ¬ (List.replicate 2 ' ' <:+:
      trim_l (cap_runs ' ' 1 (cap_runs '\n' 2 s.data))) :=
    fun h => cap_runs_no_over ' ' 1 (cap_runs '\n' 2 s.data) (h.trans htr)
  have hli' : has_li (trim_l (cap_runs ' ' 1 (cap_runs '\n' 2 s.data))) = false := by
    cases h : has_li (trim_l (cap_runs ' ' 1 (cap_runs '\n' 2 s.data)))
    · rfl
    · exfalso
      have h2 := ((has_li_iff _).mp h).trans htr
      rw [(has_li_iff _).mpr h2] at hli
      exact Bool.true_eq_false.mp hli
  have hol' : has_ol (trim_l (cap_runs ' ' 1 (cap_runs '\n' 2 s.data))) = false := by
    cases h : has_ol (trim_l (cap_runs ' ' 1 (cap_runs '\n' 2 s.data)))
    · rfl
    · exfalso
      obtain ⟨ds, hd1, hd2, hd3⟩ := (has_ol_iff _).mp h
      rw [(has_ol_iff _).mpr ⟨ds, hd1, hd2, hd3.trans htr⟩] at hol
      exact Bool.true_eq_false.mp hol
  rw [clean_markdown_l]
  rw [cap_runs_id '\n' 2 _ hnl, cap_runs_id ' ' 1 _ hsp, repl_hyphen_id _ hli',
    repl_ol_id _ hol', trim_l_idem]

theorem clean_markdown_idempotent_witness :
    has_li (cap_runs ' ' 1 (cap_runs '\n' 2 ("x\n\ny z" : String).data)) = false ∧
    has_ol (cap_runs ' ' 1 (cap_runs '\n' 2 ("x\n\ny z" : String).data)) = false ∧
    clean_markdown (clean_markdown "x\n\ny z") = clean_markdown "x\n\ny z" :=
  ⟨by decide, by decide,
    clean_markdown_idempotent_of_no_empty_bullets "x\n\ny z" (by decide) (by decide)⟩

-- C4: no triple newlines in the outputs --------------------------------------

/-- C4 counterexample: for the document `<p>x\n\n- \n\ny</p>` the raw output
is `"x\n\n\ny"` — deleting the empty bullet line splices the surrounding
blank lines into three consecutive newlines, which the already-finished
newline-collapse pass no longer removes. -/
theorem run_pipeline_triple_newline_cex :
    has_triple '\n' ((run_pipeline um_unit "" "" true doc_bullet_splice).raw_markdown).data
      = true := by
  decide

/-- C4 (amended): the raw output contains no three consecutive newlines
provided the empty-bullet deletion does not fire while cleaning the selected
walk buffer (primary or fallback); without that proviso the bullet deletion
can splice blank lines into a triple newline, which then also reaches the
citations/plain/readable variants. -/
theorem run_pipeline_raw_no_triple_newline {U : Type} (um : UrlModel U)
    (html base_url : String) (dedupe : Bool) (doc : HNode)
    (h1 : has_li (cap_runs ' ' 1 (cap_runs '\n' 2 (primary_buf um base_url dedupe doc).data)) = false)
    (h2 : has_ol (cap_runs ' ' 1 (cap_runs '\n' 2 (primary_buf um base_url dedupe doc).data)) = false)
    (h3 : has_li (cap_runs ' ' 1 (cap_runs '\n' 2 (full_buf um base_url dedupe doc).data)) = false)
    (h4 : has_ol (cap_runs ' ' 1 (cap_runs '\n' 2 (full_buf um base_url dedupe doc).data)) = false) :
    has_triple '\n' ((run_pipeline um html base_url dedupe doc).raw_markdown).data = false := by
  have hfull : has_triple '\n' (full_raw um base_url dedupe doc).data = false :=
    clean_markdown_l_no_triple _ h3 h4
  have hprim : has_triple '\n' (primary_raw um base_url dedupe doc).data = false :=
    clean_markdown_l_no_triple _ h1 h2
  unfold run_pipeline
  simp only []
  split
  · exact hfull
  · exact hprim

theorem run_pipeline_raw_no_triple_newline_witness :
    has_li (cap_runs ' ' 1 (cap_runs '\n' 2 (primary_buf um_unit "" true doc_tiny).data)) = false ∧
    has_triple '\n' ((run_pipeline um_unit "" "" true doc_tiny).raw_markdown).data = false :=
  ⟨by decide,
    run_pipeline_raw_no_triple_newline um_unit "" "" true doc_tiny
      (by decide) (by decide) (by decide) (by decide)⟩

-- C7 machinery: behaviour of the strip passes on well-bracketed text ---------

theorem strip_pass_nil (att : List Char → Option (List Char × List Char)) :
    ∀ f : Nat, strip_pass att f [] = [] := by
  intro f
  cases f <;> rfl

theorem strip_pass_step_none (att : List Char → Option (List Char × List Char))
    (f : Nat) (c : Char) (r : List Char) (h : att (c :: r) = none) :
    strip_pass att (f + 1) (c :: r) = c :: strip_pass att f r := by
  simp only [strip_pass, h]

theorem strip_pass_step_some (att : List Char → Option (List Char × List Char))
    (f : Nat) (c : Char) (r t rest : List Char) (h : att (c :: r) = some (t, rest)) :
    strip_pass att (f + 1) (c :: r) = t ++ strip_pass att f rest := by
  simp only [strip_pass, h]

theorem sla_none (c : Char) (l : List Char) (hc : c ≠ '[') :
    strip_link_at (c :: l) = none := by
  rw [strip_link_at.eq_def]
  split
  · rename_i r heq
    injection heq with h1 _
    exact absurd h1 hc
  · rfl

theorem sia_none (c : Char) (l : List Char) (hc : c ≠ '!') :
    strip_img_at (c :: l) = none := by
  rw [strip_img_at.eq_def]
  split
  · rename_i r heq
    injection heq with h1 _
    exact absurd h1 hc
  · rfl

theorem sia_none2 (c : Char) (l : List Char) (hc : c ≠ '[') :
    strip_img_at ('!' :: c :: l) = none := by
  rw [strip_img_at.eq_def]
  split
  · rename_i r heq
    injection heq with _ h2
    injection h2 with h2 _
    exact absurd h2 hc
  · rfl

theorem tok_ok_mem (s : List Char) (h : s.all tok_ok_char = true) :
    ∀ c ∈ s, c ≠ '[' ∧ c ≠ ']' ∧ c ≠ '!' ∧ c ≠ ')' := by
  intro c hc
  have h2 := List.all_eq_true.mp h c hc
  rw [tok_ok_char, Bool.not_eq_true'] at h2
  simp only [Bool.or_eq_false_iff, decide_eq_false_iff_not] at h2
  exact ⟨h2.1.1.1, h2.1.1.2, h2.1.2, h2.2⟩

theorem all_ne_of_ok (s : List Char) (h : s.all tok_ok_char = true) (x : Char)
    (hx : x = '[' ∨ x = ']' ∨ x = '!' ∨ x = ')') :
    s.all (fun c => c ≠ x) = true := by
  apply List.all_eq_true.mpr
  intro c hc
  obtain ⟨h1, h2, h3, h4⟩ := tok_ok_mem s h c hc
  rcases hx with rfl | rfl | rfl | rfl <;> simp [h1, h2, h3, h4]

theorem strip_pass1_seg (s : List Char) (hno : ∀ c ∈ s, c ≠ '[') :
    ∀ (f : Nat) (r : List Char),
      strip_pass strip_link_at (s.length + f) (s ++ r) =
        s ++ strip_pass strip_link_at f r := by
  induction s with
  | nil =>
    intro f r
    simp [strip_pass]
  | cons c s ih =>
    intro f r
    have hc : c ≠ '[' := hno c (List.mem_cons_self _ _)
    have hl : (c :: s).length + f = (s.length + f) + 1 := by
      simp [List.length_cons]
      omega
    rw [hl, List.cons_append,
      strip_pass_step_none _ _ _ _ (sla_none c _ hc),
      ih (fun c hc => hno c (List.mem_cons_of_mem _ hc)) f r,
      List.cons_append]

theorem sla_match (t u r : List Char) (ht : t ≠ []) (htok : t.all tok_ok_char = true)
    (hu : u ≠ []) (hutok : u.all tok_ok_char = true) :
    strip_link_at ('[' :: (t ++ ']' :: '(' :: (u ++ ')' :: r))) = some (t, r) := by
  obtain ⟨htw, hdw⟩ := takeWhile_append_all (· ≠ ']') t ']' ('(' :: (u ++ ')' :: r))
    (all_ne_of_ok t htok ']' (by simp)) (by decide)
  obtain ⟨htw2, hdw2⟩ := takeWhile_append_all (· ≠ ')') u ')' r
    (all_ne_of_ok u hutok ')' (by simp)) (by decide)
  simp only [strip_link_at, htw, hdw, htw2, hdw2]
  simp [List.isEmpty_iff, ht, hu]

theorem sla_empty_alt (u r : List Char) :
    strip_link_at ('[' :: ']' :: '(' :: (u ++ ')' :: r)) = none := by
  simp [strip_link_at]

theorem sia_match (a u r : List Char) (hatok : a.all tok_ok_char = true)
    (hu : u ≠ []) (hutok : u.all tok_ok_char = true) :
    strip_img_at ('!' :: '[' :: (a ++ ']' :: '(' :: (u ++ ')' :: r))) = some (a, r) := by
  obtain ⟨htw, hdw⟩ := takeWhile_append_all (· ≠ ']') a ']' ('(' :: (u ++ ')' :: r))
    (all_ne_of_ok a hatok ']' (by simp)) (by decide)
  obtain ⟨htw2, hdw2⟩ := takeWhile_append_all (· ≠ ')') u ')' r
    (all_ne_of_ok u hutok ')' (by simp)) (by decide)
  simp only [strip_img_at, htw, hdw, htw2, hdw2]
  simp [List.isEmpty_iff, hu]

theorem strip_pass1_link (t u : List Char) (hw : tok_wf (.link t u) = true) :
    ∀ (f : Nat) (r : List Char),
      strip_pass strip_link_at (1 + f) (tok_render (.link t u) ++ r) =
        t ++ strip_pass strip_link_at f r := by
  intro f r
  rw [tok_wf] at hw
  simp only [Bool.and_eq_true, Bool.not_eq_true', List.isEmpty_eq_false] at hw
  obtain ⟨⟨⟨ht, htok⟩, hu⟩, hutok⟩ := hw
  have hsh : (tok_render (.link t u) ++ r) = '[' :: (t ++ ']' :: '(' :: (u ++ ')' :: r)) := by
    rw [tok_render]
    simp [List.append_assoc]
  rw [show (1 : Nat) + f = f + 1 by omega, hsh,
    strip_pass_step_some _ _ _ _ _ _ (sla_match t u r ht htok hu hutok)]

theorem strip_pass1_img_empty (u : List Char) (hw : tok_wf (.img [] u) = true) :
    ∀ (f : Nat) (r : List Char),
      strip_pass strip_link_at ((u.length + 5) + f) (tok_render (.img [] u) ++ r) =
        tok_render (.img [] u) ++ strip_pass strip_link_at f r := by
  intro f r
  rw [tok_wf] at hw
  simp only [Bool.and_eq_true, Bool.not_eq_true', List.isEmpty_eq_false, List.all_nil,
    true_and] at hw
  obtain ⟨hu, hutok⟩ := hw
  have hsh : (tok_render (.img [] u) ++ r) = '!' :: '[' :: ']' :: '(' :: (u ++ ')' :: r) := by
    rw [tok_render]
    simp [List.append_assoc]
  rw [hsh, show (u.length + 5) + f = ((((u.length + (1 + f)) + 1) + 1) + 1) + 1 by omega,
    strip_pass_step_none _ _ _ _ (sla_none '!' _ (by decide)),
    strip_pass_step_none _ _ _ _ (sla_empty_alt u r),
    strip_pass_step_none _ _ _ _ (sla_none ']' _ (by decide)),
    strip_pass_step_none _ _ _ _ (sla_none '(' _ (by decide)),
    strip_pass1_seg u (fun c hc => (tok_ok_mem u hutok c hc).1) (1 + f) (')' :: r),
    show (1 : Nat) + f = f + 1 by omega,
    strip_pass_step_none _ _ _ _ (sla_none ')' _ (by decide))]
  rw [tok_render]
  simp [List.append_assoc]

theorem strip_pass1_img_alt (a u : List Char) (ha : a ≠ []) (hw : tok_wf (.img a u) = true) :
    ∀ (f : Nat) (r : List Char),
      strip_pass strip_link_at (2 + f) (tok_render (.img a u) ++ r) =
        ('!' :: a) ++ strip_pass strip_link_at f r := by
  intro f r
  rw [tok_wf] at hw
  simp only [Bool.and_eq_true, Bool.not_eq_true', List.isEmpty_eq_false] at hw
  obtain ⟨⟨hatok, hu⟩, hutok⟩ := hw
  have hsh : (tok_render (.img a u) ++ r) = '!' :: '[' :: (a ++ ']' :: '(' :: (u ++ ')' :: r)) := by
    rw [tok_render]
    simp [List.append_assoc]
  rw [hsh, show (2 : Nat) + f = (f + 1) + 1 by omega,
    strip_pass_step_none _ _ _ _ (sla_none '!' _ (by decide)),
    strip_pass_step_some _ _ _ _ _ _ (sla_match a u r ha hatok hu hutok)]
  rfl

theorem strip_pass2_seg (s : List Char) (hno : ∀ c ∈ s, c ≠ '!') :
    ∀ (f : Nat) (r : List Char),
      strip_pass strip_img_at (s.length + f) (s ++ r) =
        s ++ strip_pass strip_img_at f r := by
  induction s with
  | nil =>
    intro f r
    simp [strip_pass]
  | cons c s ih =>
    intro f r
    have hc : c ≠ '!' := hno c (List.mem_cons_self _ _)
    have hl : (c :: s).length + f = (s.length + f) + 1 := by
      simp [List.length_cons]
      omega
    rw [hl, List.cons_append,
      strip_pass_step_none _ _ _ _ (sia_none c _ hc),
      ih (fun c hc => hno c (List.mem_cons_of_mem _ hc)) f r,
      List.cons_append]

theorem strip_pass2_img_empty (u : List Char) (hu : u ≠ []) (hutok : u.all tok_ok_char = true) :
    ∀ (f : Nat) (r : List Char),
      strip_pass strip_img_at (1 + f) (tok_pass1_out (.img [] u) ++ r) =
        strip_pass strip_img_at f r := by
  intro f r
  have hsh : (tok_pass1_out (.img [] u) ++ r) =
      '!' :: '[' :: (([] : List Char) ++ ']' :: '(' :: (u ++ ')' :: r)) := by
    rw [tok_pass1_out]
    simp [List.append_assoc]
  rw [hsh, show (1 : Nat) + f = f + 1 by omega,
    strip_pass_step_some _ _ _ _ _ _ (sia_match [] u r rfl hu hutok)]
  rfl

theorem strip_pass2_bang_alt (a : List Char) (ha : a ≠ []) (hatok : a.all tok_ok_char = true) :
    ∀ (f : Nat) (r : List Char),
      strip_pass strip_img_at ((a.length + 1) + f) (('!' :: a) ++ r) =
        ('!' :: a) ++ strip_pass strip_img_at f r := by
  intro f r
  cases a with
  | nil => exact absurd rfl ha
  | cons c a2 =>
    have hc : c ≠ '[' := (tok_ok_mem _ hatok c (List.mem_cons_self _ _)).1
    have hl : ((c :: a2).length + 1) + f = ((c :: a2).length + f) + 1 := by omega
    rw [hl, List.cons_append,
      strip_pass_step_none _ _ _ _ (by rw [List.cons_append]; exact sia_none2 c _ hc),
      strip_pass2_seg (c :: a2) (fun x hx => (tok_ok_mem _ hatok x hx).2.2.1) f r]
    simp

theorem strip_pass1_flat (toks : List Tok) (hwf : ∀ t ∈ toks, tok_wf t = true) :
    ∃ g : Nat, g ≤ (toks.map tok_render).flatten.length ∧
      ∀ (f : Nat) (r : List Char),
        strip_pass strip_link_at (g + f) ((toks.map tok_render).flatten ++ r) =
          (toks.map tok_pass1_out).flatten ++ strip_pass strip_link_at f r := by
  induction toks with
  | nil => exact ⟨0, by simp, fun f r => by simp⟩
  | cons t toks ih =>
    obtain ⟨g, hgle, hg⟩ := ih (fun x hx => hwf x (List.mem_cons_of_mem _ hx))
    have hwt := hwf t (List.mem_cons_self _ _)
    cases t with
    | seg s =>
      refine ⟨s.length + g, ?_, fun f r => ?_⟩
      · simp only [List.map_cons, List.flatten_cons, List.length_append, tok_render]
        omega
      · simp only [List.map_cons, List.flatten_cons, tok_render, tok_pass1_out]
        rw [List.append_assoc, show (s.length + g) + f = s.length + (g + f) by omega,
          strip_pass1_seg s (fun c hc => (tok_ok_mem s (by rwa [tok_wf] at hwt) c hc).1) (g + f) _,
          hg f r, List.append_assoc]
    | link t u =>
      refine ⟨1 + g, ?_, fun f r => ?_⟩
      · simp only [List.map_cons, List.flatten_cons, List.length_append, tok_render,
          List.length_cons]
        omega
      · simp only [List.map_cons, List.flatten_cons, tok_pass1_out]
        rw [List.append_assoc, show (1 + g) + f = 1 + (g + f) by omega,
          strip_pass1_link t u hwt (g + f) _, hg f r, List.append_assoc]
    | img a u =>
      by_cases hae : a = []
      · subst hae
        refine ⟨(u.length + 5) + g, ?_, fun f r => ?_⟩
        · simp only [List.map_cons, List.flatten_cons, List.length_append, tok_render,
            List.length_cons, List.nil_append, List.length_append]
          omega
        · simp only [List.map_cons, List.flatten_cons]
          rw [List.append_assoc, show ((u.length + 5) + g) + f = (u.length + 5) + (g + f) by
            omega, strip_pass1_img_empty u hwt (g + f) _, hg f r]
          have hout : tok_pass1_out (.img [] u) = tok_render (.img [] u) := by
            simp [tok_pass1_out, tok_render]
          rw [hout, List.append_assoc]
      · refine ⟨2 + g, ?_, fun f r => ?_⟩
        · simp only [List.map_cons, List.flatten_cons, List.length_append, tok_render,
            List.length_cons]
          omega
        · simp only [List.map_cons, List.flatten_cons]
          rw [List.append_assoc, show (2 + g) + f = 2 + (g + f) by omega,
            strip_pass1_img_alt a u hae hwt (g + f) _, hg f r]
          have hout : tok_pass1_out (.img a u) = '!' :: a := by
            simp [tok_pass1_out, hae]
          rw [hout, List.append_assoc]

theorem strip_pass2_flat (toks : List Tok) (hwf : ∀ t ∈ toks, tok_wf t = true) :
    ∃ g : Nat, g ≤ (toks.map tok_pass1_out).flatten.length ∧
      ∀ (f : Nat) (r : List Char),
        strip_pass strip_img_at (g + f) ((toks.map tok_pass1_out).flatten ++ r) =
          (toks.map tok_pass2_out).flatten ++ strip_pass strip_img_at f r := by
  induction toks with
  | nil => exact ⟨0, by simp, fun f r => by simp⟩
  | cons t toks ih =>
    obtain ⟨g, hgle, hg⟩ := ih (fun x hx => hwf x (List.mem_cons_of_mem _ hx))
    have hwt := hwf t (List.mem_cons_self _ _)
    cases t with
    | seg s =>
      have hstok : s.all tok_ok_char = true := by rwa [tok_wf] at hwt
      refine ⟨s.length + g, ?_, fun f r => ?_⟩
      · simp only [List.map_cons, List.flatten_cons, List.length_append, tok_pass1_out]
        omega
      · simp only [List.map_cons, List.flatten_cons, tok_pass1_out, tok_pass2_out]
        rw [List.append_assoc, show (s.length + g) + f = s.length + (g + f) by omega,
          strip_pass2_seg s (fun c hc => (tok_ok_mem s hstok c hc).2.2.1) (g + f) _,
          hg f r, List.append_assoc]
    | link t u =>
      have httok : t.all tok_ok_char = true := by
        rw [tok_wf] at hwt
        simp only [Bool.and_eq_true] at hwt
        exact hwt.1.1.2
      refine ⟨t.length + g, ?_, fun f r => ?_⟩
      · simp only [List.map_cons, List.flatten_cons, List.length_append, tok_pass1_out]
        omega
      · simp only [List.map_cons, List.flatten_cons, tok_pass1_out, tok_pass2_out]
        rw [List.append_assoc, show (t.length + g) + f = t.length + (g + f) by omega,
          strip_pass2_seg t (fun c hc => (tok_ok_mem t httok c hc).2.2.1) (g + f) _,
          hg f r, List.append_assoc]
    | img a u =>
      have hw2 := hwt
      rw [tok_wf] at hw2
      simp only [Bool.and_eq_true, Bool.not_eq_true', List.isEmpty_eq_false] at hw2
      obtain ⟨⟨hatok, hu⟩, hutok⟩ := hw2
      by_cases hae : a = []
      · subst hae
        refine ⟨1 + g, ?_, fun f r => ?_⟩
        · simp only [List.map_cons, List.flatten_cons, List.length_append, tok_pass1_out,
            List.isEmpty_nil, if_true, List.length_cons]
          omega
        · simp only [List.map_cons, List.flatten_cons]
          rw [List.append_assoc, show (1 + g) + f = 1 + (g + f) by omega,
            strip_pass2_img_empty u hu hutok (g + f) _, hg f r]
          have hout : tok_pass2_out (.img [] u) = [] := by simp [tok_pass2_out]
          rw [hout, List.nil_append]
      · refine ⟨(a.length + 1) + g, ?_, fun f r => ?_⟩
        · simp only [List.map_cons, List.flatten_cons, List.length_append, tok_pass1_out]
          rw [if_neg (by simp [hae])]
          simp only [List.length_cons]
          omega
        · simp only [List.map_cons, List.flatten_cons]
          have hp1 : tok_pass1_out (.img a u) = '!' :: a := by simp [tok_pass1_out, hae]
          have hp2 : tok_pass2_out (.img a u) = '!' :: a := by simp [tok_pass2_out, hae]
          rw [hp1, hp2, List.append_assoc, show ((a.length + 1) + g) + f = (a.length + 1) + (g + f)
            by omega, strip_pass2_bang_alt a hae hatok (g + f) _, hg f r, List.append_assoc]

theorem strip_links_tokens (toks : List Tok) (hwf : ∀ t ∈ toks, tok_wf t = true) :
    strip_links ⟨(toks.map tok_render).flatten⟩ = ⟨(toks.map tok_pass2_out).flatten⟩ := by
  obtain ⟨g1, hg1le, hg1⟩ := strip_pass1_flat toks hwf
  obtain ⟨g2, hg2le, hg2⟩ := strip_pass2_flat toks hwf
  have hl1 : strip_pass strip_link_at (toks.map tok_render).flatten.length
      (toks.map tok_render).flatten = (toks.map tok_pass1_out).flatten := by
    have h := hg1 ((toks.map tok_render).flatten.length - g1) []
    rw [List.append_nil, strip_pass_nil, List.append_nil] at h
    rw [show (toks.map tok_render).flatten.length
      = g1 + ((toks.map tok_render).flatten.length - g1) by omega]
    exact h
  have hl2 : strip_pass strip_img_at (toks.map tok_pass1_out).flatten.length
      (toks.map tok_pass1_out).flatten = (toks.map tok_pass2_out).flatten := by
    have h := hg2 ((toks.map tok_pass1_out).flatten.length - g2) []
    rw [List.append_nil, strip_pass_nil, List.append_nil] at h
    rw [show (toks.map tok_pass1_out).flatten.length
      = g2 + ((toks.map tok_pass1_out).flatten.length - g2) by omega]
    exact h
  show (⟨strip_pass strip_img_at
      (strip_pass strip_link_at (toks.map tok_render).flatten.length
        (toks.map tok_render).flatten).length
      (strip_pass strip_link_at (toks.map tok_render).flatten.length
        (toks.map tok_render).flatten)⟩ : String) = _
  rw [hl1, hl2]

theorem flat_pass2_no_rb (toks : List Tok) (hwf : ∀ t ∈ toks, tok_wf t = true) :
    ∀ c ∈ (toks.map tok_pass2_out).flatten, c ≠ ']' := by
  intro c hc
  rw [List.mem_flatten] at hc
  obtain ⟨l, hl, hcl⟩ := hc
  rw [List.mem_map] at hl
  obtain ⟨t, ht, rfl⟩ := hl
  have hwt := hwf t ht
  cases t with
  | seg s =>
    exact (tok_ok_mem s (by rwa [tok_wf] at hwt) c (by simpa [tok_pass2_out] using hcl)).2.1
  | link t u =>
    have httok : t.all tok_ok_char = true := by
      rw [tok_wf] at hwt
      simp only [Bool.and_eq_true] at hwt
      exact hwt.1.1.2
    exact (tok_ok_mem t httok c (by simpa [tok_pass2_out] using hcl)).2.1
  | img a u =>
    have hatok : a.all tok_ok_char = true := by
      rw [tok_wf] at hwt
      simp only [Bool.and_eq_true] at hwt
      exact hwt.1.1
    by_cases hae : a = []
    · subst hae
      simp [tok_pass2_out] at hcl
    · rw [show tok_pass2_out (.img a u) = '!' :: a by simp [tok_pass2_out, hae]] at hcl
      rcases List.mem_cons.mp hcl with rfl | hca
      · decide
      · exact (tok_ok_mem a hatok c hca).2.1

theorem no_rb_no_sub (l : List Char) (h : ∀ c ∈ l, c ≠ ']') :
    list_contains_sub [']', '('] l = false := by
  induction l with
  | nil => rfl
  | cons c r ih =>
    rw [list_contains_sub]
    have hc : c ≠ ']' := h c (List.mem_cons_self _ _)
    have hpre : List.isPrefixOf [']', '('] (c :: r) = false := by
      rw [show List.isPrefixOf [']', '('] (c :: r)
        = ((']' == c) && List.isPrefixOf ['('] r) from rfl]
      simp [beq_iff_eq]
      exact fun hh => absurd hh.symm hc
    rw [hpre, ih (fun x hx => h x (List.mem_cons_of_mem _ hx))]
    rfl

-- C7: no `](` in the plain variant -------------------------------------------

/-- C7 counterexample: for the document `<p>](</p>` the plain output is the
literal `"]("` — strip_links removes link/image pattern matches, but a stray
`](` that is part of no match survives verbatim. -/
theorem run_pipeline_plain_bracket_paren_cex :
    list_contains_sub [']', '(']
      ((run_pipeline um_unit "" "" true doc_stray_brack).markdown_plain).data = true := by
  decide

/-- C7 (amended): the plain-text variant contains no `](` whenever the cleaned
raw text is a concatenation of plain segments free of the delimiter characters
`[`, `]`, `!`, `)` and of well-formed link/image constructs whose text, alt
and URL avoid those delimiters (alt may be empty).  In general a `](` outside
such constructs — literal `](` text, an empty-text link `[](u)`, or link text
containing `]` — survives into the plain output. -/
theorem strip_links_no_bracket_paren (toks : List Tok)
    (hwf : ∀ t ∈ toks, tok_wf t = true) :
    list_contains_sub [']', '(']
      (strip_links ⟨(toks.map tok_render).flatten⟩).data = false := by
  rw [strip_links_tokens toks hwf]
  exact no_rb_no_sub _ (flat_pass2_no_rb toks hwf)

theorem strip_links_no_bracket_paren_witness :
    (∀ t ∈ ([.seg ['x', ' '], .link ['a'] ['u'], .img [] ['v'], .img ['i'] ['w']] : List Tok),
      tok_wf t = true) ∧
    list_contains_sub [']', '(']
      (strip_links ⟨(([.seg ['x', ' '], .link ['a'] ['u'], .img [] ['v'],
        .img ['i'] ['w']] : List Tok).map tok_render).flatten⟩).data = false :=
  ⟨by decide, strip_links_no_bracket_paren _ (by decide)⟩

-- ===========================================================================
-- C9: subtree-closure of the skip set
-- ===========================================================================

theorem hsize_pos (n : HNode) : 0 < hsize n := by
  cases n with
  | text s => simp [hsize]
  | elem i tag attrs cs => simp [hsize]

/-- `collect_nav_ids` only ever emits identities present in the subtree. -/
theorem collect_sub_aux : ∀ k : Nat,
    (∀ n : HNode, hsize n ≤ k → ∀ x ∈ collect_nav_ids n, x ∈ subtree_ids n) ∧
    (∀ cs : List HNode, hsize_l cs ≤ k →
      ∀ x ∈ collect_nav_ids_l cs, x ∈ subtree_ids_l cs) := by
  intro k
  induction k with
  | zero =>
    constructor
    · intro n hk
      exact absurd hk (by have := hsize_pos n; omega)
    · intro cs hk x hx
      cases cs with
      | nil => simp [collect_nav_ids_l] at hx
      | cons c cs2 =>
        have := hsize_pos c
        simp [hsize_l] at hk
        omega
  | succ k ih =>
    have hnode : ∀ n : HNode, hsize n ≤ k + 1 →
        ∀ x ∈ collect_nav_ids n, x ∈ subtree_ids n := by
      intro n hk x hx
      cases n with
      | text s => simp [collect_nav_ids] at hx
      | elem i tag attrs cs =>
        by_cases hp : (should_skip tag attrs || is_nav_clutter tag attrs) = true
        · simp only [collect_nav_ids, if_pos hp] at hx
          simpa [subtree_ids] using hx
        · simp only [collect_nav_ids, if_neg hp] at hx
          simp only [subtree_ids]
          exact List.mem_cons_of_mem _
            (ih.2 cs (by simp [hsize] at hk; omega) x hx)
    refine ⟨hnode, ?_⟩
    intro cs
    induction cs with
    | nil =>
      intro _ x hx
      simp [collect_nav_ids_l] at hx
    | cons c cs2 ihl =>
      intro hk x hx
      have hpos := hsize_pos c
      simp only [hsize_l] at hk
      simp only [collect_nav_ids_l] at hx
      simp only [subtree_ids_l]
      rcases List.mem_append.mp hx with h1 | h2
      · exact List.mem_append_left _ (hnode c (by omega) x h1)
      · exact List.mem_append_right _ (ihl (by omega) x h2)

/-- Every element of a subtree has its identity in `subtree_ids`. -/
theorem elems_id_aux : ∀ k : Nat,
    (∀ n : HNode, hsize n ≤ k → ∀ e ∈ elems n, id_of e ∈ subtree_ids n) ∧
    (∀ cs : List HNode, hsize_l cs ≤ k →
      ∀ e ∈ elems_l cs, id_of e ∈ subtree_ids_l cs) := by
  intro k
  induction k with
  | zero =>
    constructor
    · intro n hk
      exact absurd hk (by have := hsize_pos n; omega)
    · intro cs hk e he
      cases cs with
      | nil => simp [elems_l] at he
      | cons c cs2 =>
        have := hsize_pos c
        simp [hsize_l] at hk
        omega
  | succ k ih =>
    have hnode : ∀ n : HNode, hsize n ≤ k + 1 →
        ∀ e ∈ elems n, id_of e ∈ subtree_ids n := by
      intro n hk e he
      cases n with
      | text s => simp [elems] at he
      | elem i tag attrs cs =>
        simp only [elems] at he
        simp only [subtree_ids]
        rcases List.mem_cons.mp he with rfl | h2
        · simp [id_of]
        · exact List.mem_cons_of_mem _
            (ih.2 cs (by simp [hsize] at hk; omega) e h2)
    refine ⟨hnode, ?_⟩
    intro cs
    induction cs with
    | nil =>
      intro _ e he
      simp [elems_l] at he
    | cons c cs2 ihl =>
      intro hk e he
      have hpos := hsize_pos c
      simp only [hsize_l] at hk
      simp only [elems_l] at he
      simp only [subtree_ids_l]
      rcases List.mem_append.mp he with h1 | h2
      · exact List.mem_append_left _ (hnode c (by omega) e h1)
      · exact List.mem_append_right _ (ihl (by omega) e h2)

/-- Element membership in a subtree is transitive. -/
theorem elems_trans_aux : ∀ k : Nat,
    (∀ n : HNode, hsize n ≤ k → ∀ d ∈ elems n, ∀ e ∈ elems d, e ∈ elems n) ∧
    (∀ cs : List HNode, hsize_l cs ≤ k →
      ∀ d ∈ elems_l cs, ∀ e ∈ elems d, e ∈ elems_l cs) := by
  intro k
  induction k with
  | zero =>
    constructor
    · intro n hk
      exact absurd hk (by have := hsize_pos n; omega)
    · intro cs hk d hd
      cases cs with
      | nil => simp [elems_l] at hd
      | cons c cs2 =>
        have := hsize_pos c
        simp [hsize_l] at hk
        omega
  | succ k ih =>
    have hnode : ∀ n : HNode, hsize n ≤ k + 1 →
        ∀ d ∈ elems n, ∀ e ∈ elems d, e ∈ elems n := by
      intro n hk d hd e he
      cases n with
      | text s => simp [elems] at hd
      | elem i tag attrs cs =>
        simp only [elems] at hd ⊢
        rcases List.mem_cons.mp hd with rfl | h2
        · simpa [elems] using he
        · exact List.mem_cons_of_mem _
            (ih.2 cs (by simp [hsize] at hk; omega) d h2 e he)
    refine ⟨hnode, ?_⟩
    intro cs
    induction cs with
    | nil =>
      intro _ d hd
      simp [elems_l] at hd
    | cons c cs2 ihl =>
      intro hk d hd e he
      have hpos := hsize_pos c
      simp only [hsize_l] at hk
      simp only [elems_l] at hd ⊢
      rcases List.mem_append.mp hd with h1 | h2
      · exact List.mem_append_left _ (hnode c (by omega) d h1 e he)
      · exact List.mem_append_right _ (ihl (by omega) d h2 e he)

/-- Core closure induction: under distinct identities, `collect_nav_ids`
membership of an element's id propagates to its whole subtree. -/
theorem skip_closed_aux : ∀ k : Nat,
    (∀ n : HNode, hsize n ≤ k → (subtree_ids n).Nodup →
      ∀ d ∈ elems n, id_of d ∈ collect_nav_ids n →
        ∀ e ∈ elems d, id_of e ∈ collect_nav_ids n) ∧
    (∀ cs : List HNode, hsize_l cs ≤ k → (subtree_ids_l cs).Nodup →
      ∀ d ∈ elems_l cs, id_of d ∈ collect_nav_ids_l cs →
        ∀ e ∈ elems d, id_of e ∈ collect_nav_ids_l cs) := by
  intro k
  induction k with
  | zero =>
    constructor
    · intro n hk
      exact absurd hk (by have := hsize_pos n; omega)
    · intro cs hk _ d hd
      cases cs with
      | nil => simp [elems_l] at hd
      | cons c cs2 =>
        have := hsize_pos c
        simp [hsize_l] at hk
        omega
  | succ k ih =>
    have hnode : ∀ n : HNode, hsize n ≤ k + 1 → (subtree_ids n).Nodup →
        ∀ d ∈ elems n, id_of d ∈ collect_nav_ids n →
          ∀ e ∈ elems d, id_of e ∈ collect_nav_ids n := by
      intro n hk hnd d hd hid e he
      cases n with
      | text s => simp [elems] at hd
      | elem i tag attrs cs =>
        by_cases hp : (should_skip tag attrs || is_nav_clutter tag attrs) = true
        · simp only [collect_nav_ids, if_pos hp]
          have hde : e ∈ elems (HNode.elem i tag attrs cs) :=
            (elems_trans_aux (hsize (HNode.elem i tag attrs cs))).1 _ le_rfl d hd e he
          have hie := (elems_id_aux (hsize (HNode.elem i tag attrs cs))).1 _ le_rfl e hde
          simpa [subtree_ids] using hie
        · simp only [collect_nav_ids, if_neg hp] at hid ⊢
          have hnd' := List.nodup_cons.mp (by simpa [subtree_ids] using hnd)
          rcases (by simpa [elems] using hd :
              d = HNode.elem i tag attrs cs ∨ d ∈ elems_l cs) with rfl | hd2
          · exfalso
            have h1 : i ∈ subtree_ids_l cs :=
              (collect_sub_aux (hsize_l cs)).2 cs le_rfl i (by simpa [id_of] using hid)
            exact hnd'.1 h1
          · exact ih.2 cs (by simp [hsize] at hk; omega) hnd'.2 d hd2 hid e he
    refine ⟨hnode, ?_⟩
    intro cs
    induction cs with
    | nil =>
      intro _ _ d hd
      simp [elems_l] at hd
    | cons c cs2 ihl =>
      intro hk hnd d hd hid e he
      have hpos := hsize_pos c
      simp only [hsize_l] at hk
      have hnd' := List.nodup_append.mp (by simpa [subtree_ids_l] using hnd)
      simp only [collect_nav_ids_l] at hid ⊢
      simp only [elems_l] at hd
      rcases List.mem_append.mp hd with hd1 | hd2
      · rcases List.mem_append.mp hid with hid1 | hid2
        · exact List.mem_append_left _ (hnode c (by omega) hnd'.1 d hd1 hid1 e he)
        · exfalso
          have ha : id_of d ∈ subtree_ids c :=
            (elems_id_aux (hsize c)).1 c le_rfl d hd1
          have hb : id_of d ∈ subtree_ids_l cs2 :=
            (collect_sub_aux (hsize_l cs2)).2 cs2 le_rfl _ hid2
          exact hnd'.2.2 ha hb
      · rcases List.mem_append.mp hid with hid1 | hid2
        · exfalso
          have ha : id_of d ∈ subtree_ids c :=
            (collect_sub_aux (hsize c)).1 c le_rfl _ hid1
          have hb : id_of d ∈ subtree_ids_l cs2 :=
            (elems_id_aux (hsize_l cs2)).2 cs2 le_rfl d hd2
          exact hnd'.2.2 ha hb
        · exact List.mem_append_right _ (ihl (by omega) hnd'.2.1 d hd2 hid2 e he)

/-- C9: the skip set is subtree-closed at construction.  For a document whose
element identities are distinct (as the parser guarantees), if `build_skip_set`
contains the id of an element of the document, it contains the id of every
element of that element's subtree. -/
theorem build_skip_set_subtree_closed (doc : HNode)
    (hnd : (subtree_ids doc).Nodup) (n : HNode) (hn : n ∈ elems doc)
    (hid : id_of n ∈ build_skip_set doc) :
    ∀ d ∈ elems n, id_of d ∈ build_skip_set doc := by
  intro d hd
  cases doc with
  | text s => simp [elems] at hn
  | elem i tag attrs cs =>
    have hnd' := List.nodup_cons.mp (by simpa [subtree_ids] using hnd)
    rcases (by simpa [elems] using hn :
        n = HNode.elem i tag attrs cs ∨ n ∈ elems_l cs) with rfl | hn2
    · exfalso
      have h1 : i ∈ subtree_ids_l cs :=
        (collect_sub_aux (hsize_l cs)).2 cs le_rfl i
          (by simpa [build_skip_set, children_of, id_of] using hid)
      exact hnd'.1 h1
    · have h2 := (skip_closed_aux (hsize_l cs)).2 cs le_rfl hnd'.2 n hn2
        (by simpa [build_skip_set, children_of] using hid) d hd
      simpa [build_skip_set, children_of] using h2

theorem build_skip_set_subtree_closed_witness :
    (subtree_ids doc_nav).Nodup ∧ nav_subtree ∈ elems doc_nav ∧
    id_of nav_subtree ∈ build_skip_set doc_nav ∧
    ∀ d ∈ elems nav_subtree, id_of d ∈ build_skip_set doc_nav := by
  have hmem : nav_subtree ∈ elems doc_nav := by
    have h : elems doc_nav = [doc_nav,
        .elem 1 "body" [] [nav_subtree, .elem 4 "p" [] [.text "content"]],
        nav_subtree, .elem 3 "a" [("href", "/home")] [.text "Home"],
        .elem 4 "p" [] [.text "content"]] := rfl
    rw [h]
    exact List.mem_cons_of_mem _ (List.mem_cons_of_mem _ (List.mem_cons_self _ _))
  exact ⟨by decide, hmem, by decide,
    build_skip_set_subtree_closed doc_nav (by decide) nav_subtree hmem (by decide)⟩
